import Mathlib

/-!
Verification of the session storage container of `realworld_dummy_server.py`.

This file gives a shallow embedding, in Lean 4, of the storage core of the
server: the bounded keyed object store (`InMemoryModel`), the bounded relation
store (`InMemoryLinks`), the per-session aggregate (`InMemoryStorage`, here
`Storage`), and the session container (`_StorageContainer`, here `Container`)
with its indexed min-heap, address-quota index and token-binding table.

Modelling conventions:
* Python dicts become insertion-ordered association lists (`dget`/`dset`/`ddel`
  below reproduce lookup, assignment and deletion on such lists).
* Python objects (user/article/comment records) become association lists of
  string fields (`DictObj`); mutation becomes functional update.
* `raise` becomes an `Except.error` result; where Python leaves a partially
  mutated object behind when an exception propagates, the model returns the
  partially mutated state alongside the error.
* The module-level configuration constants (`MAX_ID_LEN`,
  `MAX_SESSIONS_PER_IP`, the per-store capacities) are threaded as explicit
  parameters; `MAX_SESSIONS` is a constructor argument as in the source.
* The deployment is modelled with `DISABLE_ISOLATION_MODE = False` and
  `POPULATE_DEMO_DATA = False` (the isolation-disabled branch bypasses the
  whole container and stores an incompatible value in `heap`).
* The sift loops and the `while` loops of the address-quota logic are written
  with an explicit fuel argument so that every definition is executable by the
  kernel; call sites pass a fuel that is provably sufficient (the loop indices
  respectively strictly decrease, strictly increase below the length, and the
  lists strictly shrink), so the fuel-exhaustion branches are unreachable.
-/

namespace RWServer

/-! ## Python dictionaries as insertion-ordered association lists -/

/-- Lookup in an insertion-ordered association list (Python `d.get(k)` /
`d[k]`). -/
def dget {V : Type} (m : List (String × V)) (k : String) : Option V :=
  match m with
  | [] => none
  | (k', v) :: t => if k' = k then some v else dget t k

/-- Assignment `d[k] = v`: overwrite in place if the key exists, else append
(Python dicts preserve insertion order). -/
def dset {V : Type} (m : List (String × V)) (k : String) (v : V) :
    List (String × V) :=
  match m with
  | [] => [(k, v)]
  | (k', v') :: t => if k' = k then (k, v) :: t else (k', v') :: dset t k v

/-- Deletion `del d[k]` (removes the first matching key; keys are unique in
every list this development builds). -/
def ddel {V : Type} (m : List (String × V)) (k : String) :
    List (String × V) :=
  match m with
  | [] => []
  | (k', v') :: t => if k' = k then t else (k', v') :: ddel t k

/-! ## `normalize_id` and the bounded object store (`InMemoryModel`) -/

/-- A Python record (user / article / comment) as an association list of
string-valued fields. -/
abbrev DictObj := List (String × String)

/-- `normalize_id`: ids are modelled as strings (the `int` branch of the
source converts to `str` first); an id longer than `MAX_ID_LEN` raises. -/
def normalize_id (maxIdLen : Nat) (value : String) : Except String String :=
  if value.length > maxIdLen then Except.error "id is too long"
  else Except.ok value

/-- `InMemoryModel`: capacity-bounded keyed store with an auto-incrementing
id counter and an LRU access-order list. -/
structure InMemoryModel where
  max_count : Nat
  objects : List (String × DictObj)
  last_accessed_ids : List String
  current_id_counter : Nat
deriving DecidableEq, Repr

/-- `InMemoryModel.__init__` (raises on `max_count <= 0`). -/
def InMemoryModel.init (maxCount : Nat) : Except String InMemoryModel :=
  if maxCount = 0 then Except.error "invalid value for max_count"
  else Except.ok ⟨maxCount, [], [], 1⟩

/-- The state of a freshly constructed model with a positive capacity. -/
def freshModel (maxCount : Nat) : InMemoryModel := ⟨maxCount, [], [], 1⟩

/-- `InMemoryModel.add`: assign the next id, store the record (with its `id`
field set), and evict the least-recently-accessed record if the capacity is
now exceeded.  Returns the stored record as the source returns `obj`. -/
def InMemoryModel.add (maxIdLen : Nat) (m : InMemoryModel) (obj : DictObj) :
    Except String (InMemoryModel × DictObj) :=
  if (Nat.repr m.current_id_counter).length > maxIdLen then
    Except.error "cannot allocate id: we reached MAX_ID_LEN limit"
  else
    let newId := Nat.repr m.current_id_counter
    let obj1 := dset obj "id" newId
    let objects1 := dset m.objects newId obj1
    if m.max_count < objects1.length then
      match m.last_accessed_ids.head? with
      | none => Except.error "IndexError"
      | some evictedId =>
        Except.ok (⟨m.max_count, ddel objects1 evictedId,
          m.last_accessed_ids.drop 1 ++ [newId],
          m.current_id_counter + 1⟩, obj1)
    else
      Except.ok (⟨m.max_count, objects1,
        m.last_accessed_ids ++ [newId], m.current_id_counter + 1⟩, obj1)

/-- `InMemoryModel.get`: a hit moves the id to the end of the access-order
list and returns the record; a miss returns `none`. -/
def InMemoryModel.get (maxIdLen : Nat) (m : InMemoryModel) (id0 : String) :
    Except String (InMemoryModel × Option DictObj) :=
  match normalize_id maxIdLen id0 with
  | Except.error e => Except.error e
  | Except.ok nid =>
    match dget m.objects nid with
    | none => Except.ok (m, none)
    | some obj =>
      Except.ok (⟨m.max_count, m.objects,
        m.last_accessed_ids.filter (fun e => e ≠ nid) ++ [nid],
        m.current_id_counter⟩, some obj)

/-- `InMemoryModel.delete`: remove an id from both structures; reports
whether the id was present. -/
def InMemoryModel.delete (maxIdLen : Nat) (m : InMemoryModel) (id0 : String) :
    Except String (InMemoryModel × Bool) :=
  match normalize_id maxIdLen id0 with
  | Except.error e => Except.error e
  | Except.ok nid =>
    match dget m.objects nid with
    | none => Except.ok (m, false)
    | some _ =>
      Except.ok (⟨m.max_count, ddel m.objects nid,
        m.last_accessed_ids.filter (fun cid => cid ≠ nid),
        m.current_id_counter⟩, true)

/-- `InMemoryModel.values()`. -/
def InMemoryModel.values (m : InMemoryModel) : List DictObj :=
  m.objects.map Prod.snd

/-! ## The bounded relation store (`InMemoryLinks`) -/

/-- `InMemoryLinks`: ordered list of unique (source, target) pairs with a
capacity cap (capacity 0 makes `add` a no-op). -/
structure InMemoryLinks where
  max_count : Nat
  links : List (String × String)
deriving DecidableEq, Repr

/-- `InMemoryLinks.add`: move an existing pair to the end; otherwise evict
the oldest pair when at capacity, then append. -/
def InMemoryLinks.add (maxIdLen : Nat) (l : InMemoryLinks)
    (source target : String) : Except String InMemoryLinks :=
  match normalize_id maxIdLen source with
  | Except.error e => Except.error e
  | Except.ok s =>
    match normalize_id maxIdLen target with
    | Except.error e => Except.error e
    | Except.ok t =>
      if l.max_count = 0 then Except.ok l
      else if (s, t) ∈ l.links then
        Except.ok ⟨l.max_count, l.links.erase (s, t) ++ [(s, t)]⟩
      else if l.max_count ≤ l.links.length then
        Except.ok ⟨l.max_count, l.links.drop 1 ++ [(s, t)]⟩
      else
        Except.ok ⟨l.max_count, l.links ++ [(s, t)]⟩

/-- `InMemoryLinks.remove`. -/
def InMemoryLinks.remove (maxIdLen : Nat) (l : InMemoryLinks)
    (source target : String) : Except String InMemoryLinks :=
  match normalize_id maxIdLen source with
  | Except.error e => Except.error e
  | Except.ok s =>
    match normalize_id maxIdLen target with
    | Except.error e => Except.error e
    | Except.ok t =>
      if (s, t) ∈ l.links then
        Except.ok ⟨l.max_count, l.links.erase (s, t)⟩
      else Except.ok l

/-! ## The per-session aggregate (`InMemoryStorage`) -/

/-- `InMemoryStorage`: five independent bounded stores (demo-data population
disabled). -/
structure Storage where
  users : InMemoryModel
  articles : InMemoryModel
  comments : InMemoryModel
  follows : InMemoryLinks
  favorites : InMemoryLinks
deriving DecidableEq, Repr

/-- The per-store capacities and address cap consumed by the container
(`MAX_*` module constants of the source). -/
structure Cfg where
  maxPerIp : Nat
  maxUsers : Nat
  maxArticles : Nat
  maxComments : Nat
  maxFollows : Nat
  maxFavorites : Nat
deriving DecidableEq, Repr

/-- A freshly constructed `InMemoryStorage()` (demo data disabled). -/
def freshStorage (cfg : Cfg) : Storage :=
  ⟨freshModel cfg.maxUsers, freshModel cfg.maxArticles,
   freshModel cfg.maxComments, ⟨cfg.maxFollows, []⟩, ⟨cfg.maxFavorites, []⟩⟩

/-! ## The session container (`_StorageContainer`) -/

/-- One heap entry `[priority, obj_id, data, index, client_ip]`.  `ip` is the
raw `client_ip` given at push time (`None` becomes `none`); the source
overwrites it with a normalized address on reattribution. -/
structure Item where
  priority : Nat
  sid : String
  data : Storage
  pos : Nat
  ip : Option String
deriving DecidableEq, Repr

/-- A default item used only for out-of-bounds indexing (never reached under
the index invariants proved below). -/
def dItem : Item :=
  ⟨0, "", ⟨freshModel 1, freshModel 1, freshModel 1, ⟨0, []⟩, ⟨0, []⟩⟩, 0, none⟩

/-- `self.heap[i]` (out of bounds yields `dItem`). -/
def hget (h : List Item) (i : Nat) : Item := h.getD i dItem

/-- The state of a `_StorageContainer` (isolation enabled). -/
structure Container where
  maxSessions : Nat
  heap : List Item
  index_map : List (String × Nat)
  jwt_to_session : List (String × String)
  jwt_to_session_order : List String
  ip_to_sessions : List (String × List String)
deriving DecidableEq, Repr

/-- `_StorageContainer.__init__` (the `MAX_SESSIONS_PER_IP < 1` startup check
is carried as a hypothesis `1 ≤ maxPerIp` where relevant). -/
def Container.init (maxSessions : Nat) : Container :=
  ⟨maxSessions, [], [], [], [], []⟩

/-- `_swap(i, j)`: swap two heap slots, updating the stored `pos` fields and
the index map exactly as the three assignment lines of the source do. -/
def cswap (h : List Item) (im : List (String × Nat)) (i j : Nat) :
    List Item × List (String × Nat) :=
  let ii := hget h i
  let jj := hget h j
  let im1 := dset (dset im ii.sid j) jj.sid i
  let h1 := (h.set i { jj with pos := i }).set j { ii with pos := j }
  (h1, im1)

/-- `_sift_up(index)`.  `fuel` bounds the iteration count; the parent index
`(i-1)/2` strictly decreases, so any `fuel ≥ i` is sufficient and the
fuel-exhaustion branch is unreachable at the call sites below. -/
def sift_up (fuel : Nat) (h : List Item) (im : List (String × Nat))
    (i : Nat) : List Item × List (String × Nat) :=
  match fuel with
  | 0 => (h, im)
  | fuel + 1 =>
    if i = 0 then (h, im)
    else
      let p := (i - 1) / 2
      if (hget h p).priority ≤ (hget h i).priority then (h, im)
      else
        let s := cswap h im i p
        sift_up fuel s.1 s.2 p

/-- `_sift_down(index)`.  The active index strictly increases below the heap
length, so any `fuel ≥ h.length` is sufficient. -/
def sift_down (fuel : Nat) (h : List Item) (im : List (String × Nat))
    (i : Nat) : List Item × List (String × Nat) :=
  match fuel with
  | 0 => (h, im)
  | fuel + 1 =>
    let lc := 2 * i + 1
    let rc := 2 * i + 2
    let s1 := if lc < h.length ∧ (hget h lc).priority < (hget h i).priority
      then lc else i
    let s2 := if rc < h.length ∧ (hget h rc).priority < (hget h s1).priority
      then rc else s1
    if s2 = i then (h, im)
    else
      let s := cswap h im i s2
      sift_down fuel s.1 s.2 s2

/-- `_push`: append the item (its `index` field set to its slot), record it
in the index map, and sift up. -/
def pushRaw (c : Container) (priority : Nat) (sid : String) (data : Storage)
    (ip : Option String) : Container :=
  let index := c.heap.length
  let h := c.heap ++ [⟨priority, sid, data, index, ip⟩]
  let im := dset c.index_map sid index
  let s := sift_up index h im index
  { c with heap := s.1, index_map := s.2 }

/-- `_pop`: remove and return the root; move the last item to the root and
sift down unless the popped element was the only one. -/
def popRaw (c : Container) : Option Item × Container :=
  match c.heap.head? with
  | none => (none, c)
  | some root =>
    let im := ddel c.index_map root.sid
    if c.heap.length = 1 then
      (some root, { c with heap := [], index_map := im })
    else
      match c.heap.getLast? with
      | none => (none, c)
      | some last =>
        let h0 := (c.heap.dropLast).set 0 { last with pos := 0 }
        let im0 := dset im last.sid 0
        let s := sift_down h0.length h0 im0 0
        (some root, { c with heap := s.1, index_map := s.2 })

/-- `_update_priority`: raises `ValueError` (state unchanged) when the id is
absent; otherwise rewrite the priority in place and sift up or down. -/
def updateRaw (c : Container) (sid : String) (newPriority : Nat) :
    Except String Container :=
  match dget c.index_map sid with
  | none => Except.error "Object not found in heap"
  | some index =>
    let oldPriority := (hget c.heap index).priority
    let h := c.heap.set index { hget c.heap index with priority := newPriority }
    if newPriority < oldPriority then
      let s := sift_up index h c.index_map index
      Except.ok { c with heap := s.1, index_map := s.2 }
    else if oldPriority < newPriority then
      let s := sift_down h.length h c.index_map index
      Except.ok { c with heap := s.1, index_map := s.2 }
    else
      Except.ok { c with heap := h }

/-! ## Address-quota bookkeeping (`_handle_client_ip_and_session_*`) -/

/-- `str.endswith(suffix)` over the character list (the library
`String.endsWith` does not reduce in the kernel). -/
def endsWithL (s suffix : String) : Bool :=
  suffix.data.length ≤ s.data.length ∧
    s.data.drop (s.data.length - suffix.data.length) = suffix.data

/-- `str.split(sep)` for a single-character separator, over the character
list (Python semantics: `"".split(":") == [""]`, empty fields kept). -/
def splitOnChar (sep : Char) : List Char → List (List Char)
  | [] => [[]]
  | c :: rest =>
    if c = sep then [] :: splitOnChar sep rest
    else
      match splitOnChar sep rest with
      | [] => [[c]]
      | p :: ps => (c :: p) :: ps

/-- `sep.join(parts)` for a single-character separator. -/
def joinChar (sep : Char) (parts : List (List Char)) : List Char :=
  (parts.intersperse [sep]).flatten

/-- `_normalize_ip_for_limiting`: IPv4 as-is; IPv6 collapsed to its first
four groups plus `::/64`; idempotent on already-normalized values. -/
def normalizeIp (ip : String) : String :=
  if endsWithL ip "/64" then ip
  else if ip.data.any (fun c => c = ':') then
    let parts := splitOnChar ':' ip.data
    if 4 ≤ parts.length then ⟨joinChar ':' (parts.take 4) ++ "::/64".data⟩
    else ⟨ip.data ++ "/64".data⟩
  else ip

/-- Python truthiness of an optional string argument (`None` and `""` are
falsy). -/
def truthy (o : Option String) : Bool := o.getD "" ≠ ""

/-- The body of the two identical `while len(...) > MAX_SESSIONS_PER_IP`
loops: force the front session of the bucket to priority 0, pop it from the
heap, and drop it from the bucket.  `_update_priority` raises (with the
partially rewritten bucket left behind) when the front session is no longer
in the heap.  The bucket shrinks by one per iteration, so any
`fuel ≥` bucket length is sufficient. -/
def evictLoop (maxPerIp : Nat) (fuel : Nat) (c : Container) (nip : String) :
    Container × Except String Unit :=
  match fuel with
  | 0 => (c, Except.error "fuel exhausted")
  | fuel + 1 =>
    let lst := (dget c.ip_to_sessions nip).getD []
    if maxPerIp < lst.length then
      match lst.head? with
      | none => (c, Except.error "IndexError")
      | some sid0 =>
        match updateRaw c sid0 0 with
        | Except.error e => (c, Except.error e)
        | Except.ok c1 =>
          let c2 := (popRaw c1).2
          let lst2 := (dget c2.ip_to_sessions nip).getD []
          let c3 := { c2 with
            ip_to_sessions := dset c2.ip_to_sessions nip (lst2.drop 1) }
          evictLoop maxPerIp fuel c3 nip
    else (c, Except.ok ())

/-- `_handle_client_ip_and_session_addition`: append the session to its
normalized bucket, evicting front sessions while the bucket is over the
cap. -/
def handleAddition (maxPerIp : Nat) (c : Container) (identifier : String)
    (clientIp : Option String) : Container × Except String Unit :=
  if truthy clientIp = false then (c, Except.ok ())
  else
    let nip := normalizeIp (clientIp.getD "")
    match dget c.ip_to_sessions nip with
    | none =>
      ({ c with ip_to_sessions := dset c.ip_to_sessions nip [identifier] },
       Except.ok ())
    | some lst =>
      let c1 := { c with
        ip_to_sessions := dset c.ip_to_sessions nip (lst ++ [identifier]) }
      evictLoop maxPerIp (lst.length + 1) c1 nip

/-- `_handle_client_ip_and_session_eviction`: remove the session from its
normalized bucket, deleting the bucket if it becomes empty. -/
def handleEviction (c : Container) (identifier : String)
    (clientIp : Option String) : Container :=
  if truthy clientIp = false then c
  else
    let nip := normalizeIp (clientIp.getD "")
    match dget c.ip_to_sessions nip with
    | none => c
    | some lst =>
      let lst1 := lst.filter (fun e => e ≠ identifier)
      if lst1 = [] then
        { c with ip_to_sessions := ddel c.ip_to_sessions nip }
      else
        { c with ip_to_sessions := dset c.ip_to_sessions nip lst1 }

/-- `_handle_client_ip_and_session_reattribution`: record the new owning
address on the heap item, remove the session from the bucket keyed by the
*saved* address value, append it to the new normalized bucket, and enforce
the cap there. -/
def reattribution (maxPerIp : Nat) (c : Container) (sessionId : String)
    (savedIp : Option String) (nip : String) : Container × Except String Unit :=
  match dget c.index_map sessionId with
  | none => (c, Except.error "KeyError")
  | some idx =>
    let c1 := { c with
      heap := c.heap.set idx { hget c.heap idx with ip := some nip } }
    let c2 :=
      if truthy savedIp = false then c1
      else
        match dget c1.ip_to_sessions (savedIp.getD "") with
        | none => c1
        | some lst =>
          let lst1 := lst.filter (fun e => e ≠ sessionId)
          if lst1 = [] then
            { c1 with ip_to_sessions := ddel c1.ip_to_sessions (savedIp.getD "") }
          else
            { c1 with ip_to_sessions := dset c1.ip_to_sessions (savedIp.getD "") lst1 }
    let cur := (dget c2.ip_to_sessions nip).getD []
    let newLst := cur.filter (fun e => e ≠ sessionId) ++ [sessionId]
    let c3 := { c2 with ip_to_sessions := dset c2.ip_to_sessions nip newLst }
    evictLoop maxPerIp newLst.length c3 nip

/-- `_handle_client_ip_and_session_priority`: same-address touches bump the
session to the end of its bucket; an address change triggers
reattribution.  The saved address compared against the normalized new one is
the raw `client_ip` stored in the heap item. -/
def handlePriority (maxPerIp : Nat) (c : Container) (sessionId : String)
    (clientIp : Option String) : Container × Except String Unit :=
  if truthy clientIp = false then (c, Except.ok ())
  else
    let nip := normalizeIp (clientIp.getD "")
    match dget c.index_map sessionId with
    | none => (c, Except.error "KeyError")
    | some idx =>
      let savedIp := (hget c.heap idx).ip
      if savedIp = some nip then
        match dget c.ip_to_sessions nip with
        | none =>
          ({ c with ip_to_sessions := dset c.ip_to_sessions nip [sessionId] },
           Except.ok ())
        | some lst =>
          let newLst := lst.filter (fun e => e ≠ sessionId) ++ [sessionId]
          ({ c with ip_to_sessions := dset c.ip_to_sessions nip newLst },
           Except.ok ())
      else reattribution maxPerIp c sessionId savedIp nip

/-! ## Public container operations -/

/-- `push`: heap push plus address-quota bookkeeping (which may evict other
sessions of the same bucket). -/
def Container.push (maxPerIp : Nat) (c : Container) (priority : Nat)
    (sid : String) (data : Storage) (ip : Option String) :
    Container × Except String Unit :=
  handleAddition maxPerIp (pushRaw c priority sid data ip) sid ip

/-- `pop`: heap pop plus removal from the popped session's bucket. -/
def Container.pop (c : Container) : Option Item × Container :=
  match popRaw c with
  | (none, c1) => (none, c1)
  | (some it, c1) => (some it, handleEviction c1 it.sid it.ip)

/-- `update_priority`: heap priority update plus same-address bump or
reattribution. -/
def Container.update_priority (maxPerIp : Nat) (c : Container) (sid : String)
    (newPriority : Nat) (ip : Option String) : Container × Except String Unit :=
  match updateRaw c sid newPriority with
  | Except.error e => (c, Except.error e)
  | Except.ok c1 => handlePriority maxPerIp c1 sid ip

/-! ## `get_storage`, credential search, token binding, snapshot -/

/-- The target-resolution step of `get_storage` (lines preferring the cookie
id, then the token binding — accepted only if the bound id is truthy and
still in the priority queue, in which case the token order list is rewritten
— then a fresh random id).  Returns the chosen target id together with the
new `jwt_to_session_order`.  Note the source filters the order list by the
*resolved session id*, then appends the token. -/
def computeTarget (c : Container) (cookie jwt : Option String)
    (freshId : String) : String × List String :=
  let tgt0 := cookie.getD ""
  let step :=
    if tgt0 = "" ∧ truthy jwt then
      match dget c.jwt_to_session (jwt.getD "") with
      | some s =>
        if s ≠ "" ∧ (dget c.index_map s).isSome then
          (s, c.jwt_to_session_order.filter (fun e => e ≠ s) ++ [jwt.getD ""])
        else (tgt0, c.jwt_to_session_order)
      | none => (tgt0, c.jwt_to_session_order)
    else (tgt0, c.jwt_to_session_order)
  (if step.1 = "" then freshId else step.1, step.2)

/-- `get_storage` (isolation enabled): resolve a target session id; create,
push and quota-handle a fresh `InMemoryStorage` when absent (evicting the
globally oldest session first when at the global cap); touch the priority
and address bookkeeping when present.  `now` stands for `time_ns()` and
`freshId` for `str(uuid.uuid4())`. -/
def Container.get_storage (cfg : Cfg) (c : Container)
    (cookie ip jwt : Option String) (now : Nat) (freshId : String) :
    Container × Except String (String × Storage) :=
  let t := computeTarget c cookie jwt freshId
  let c0 := { c with jwt_to_session_order := t.2 }
  match dget c0.index_map t.1 with
  | none =>
    let c1 := if c0.maxSessions ≤ c0.index_map.length then (Container.pop c0).2
      else c0
    let pushed := Container.push cfg.maxPerIp c1 now t.1 (freshStorage cfg) ip
    match pushed.2 with
    | Except.error e => (pushed.1, Except.error e)
    | Except.ok _ =>
      match dget pushed.1.index_map t.1 with
      | some idx => (pushed.1, Except.ok (t.1, (hget pushed.1.heap idx).data))
      | none => (pushed.1, Except.error "TypeError")
  | some idx =>
    let r := (hget c0.heap idx).data
    let touched := Container.update_priority cfg.maxPerIp c0 t.1 now ip
    match touched.2 with
    | Except.error e => (touched.1, Except.error e)
    | Except.ok _ => (touched.1, Except.ok (t.1, r))

/-- Does a user record match the credentials (`user["email"] == email and
user["password"] == hashed_password`)? -/
def userMatches (u : DictObj) (email hashedPassword : String) : Bool :=
  dget u "email" = some email ∧ dget u "password" = some hashedPassword

/-- `find_session_by_credentials`: linear scan of the heap array; within a
session, scan its user store; return the first session containing a match. -/
def Container.find_session_by_credentials (c : Container)
    (email hashedPassword : String) : Option (String × Storage) :=
  c.heap.findSome? fun it =>
    if it.data.users.values.any (fun u => userMatches u email hashedPassword)
    then some (it.sid, it.data) else none

/-- Membership in the set comprehension
`{t for t, s in jwt_to_session.items() if t == jwt_token or s == session_id}`. -/
def bindBase (c : Container) (jwtToken sid t : String) : Bool :=
  match dget c.jwt_to_session t with
  | some s => t = jwtToken ∨ s = sid
  | none => false

/-- The token additionally marked for removal when the order list is at or
over the cap (`order[0]`; `none` when the cap check fails). -/
def bindEvictTok (c : Container) : Option String :=
  if c.maxSessions ≤ c.jwt_to_session_order.length
  then c.jwt_to_session_order.head? else none

/-- The full removal set of `bind_jwt_to_session_id`. -/
def bindToRem (c : Container) (jwtToken sid t : String) : Bool :=
  bindBase c jwtToken sid t ∨ bindEvictTok c = some t

/-- `bind_jwt_to_session_id`: remove every binding whose token equals the
given token or whose session equals the given session id; when the order
list is at or over the global cap *before* that removal, additionally mark
the oldest-bound token; apply all removals; insert the new binding at the
end.  `order[0]` on an empty list raises `IndexError`; deleting an absent
marked token raises `KeyError` (with the other removals applied, one of the
orders CPython's unordered set iteration may take). -/
def Container.bind_jwt_to_session_id (c : Container) (jwtToken sid : String) :
    Container × Except String Unit :=
  if c.maxSessions ≤ c.jwt_to_session_order.length ∧ c.jwt_to_session_order = []
  then (c, Except.error "IndexError")
  else
    let order1 := c.jwt_to_session_order.filter
      (fun t => ¬ bindToRem c jwtToken sid t)
    let map1 := c.jwt_to_session.filter
      (fun p => ¬ bindToRem c jwtToken sid p.1)
    let keyErr : Bool :=
      match bindEvictTok c with
      | some t0 => ¬ bindBase c jwtToken sid t0 ∧ dget c.jwt_to_session t0 = none
      | none => false
    if keyErr then
      ({ c with jwt_to_session := map1, jwt_to_session_order := order1 },
       Except.error "KeyError")
    else
      ({ c with
         jwt_to_session := dset map1 jwtToken sid
         jwt_to_session_order := order1 ++ [jwtToken] }, Except.ok ())

/-- The in-memory effect of `save_data`: drain the heap oldest-to-newest by
`pop`, collecting the items, then re-push every saved item.  The heap
shrinks by one per `pop`, so any `fuel ≥ c.heap.length` drains fully. -/
def drainLoop (fuel : Nat) (c : Container) (acc : List Item) :
    Container × List Item :=
  match fuel with
  | 0 => (c, acc.reverse)
  | fuel + 1 =>
    if c.heap.isEmpty then (c, acc.reverse)
    else
      match Container.pop c with
      | (none, c1) => (c1, acc.reverse)
      | (some it, c1) => drainLoop fuel c1 (it :: acc)

/-- Re-push a list of saved items in order (the second loop of
`save_data`). -/
def refillLoop (maxPerIp : Nat) (c : Container) :
    List Item → Container × Except String Unit
  | [] => (c, Except.ok ())
  | it :: rest =>
    let p := Container.push maxPerIp c it.priority it.sid it.data it.ip
    match p.2 with
    | Except.error e => (p.1, Except.error e)
    | Except.ok _ => refillLoop maxPerIp p.1 rest

/-- The container mutation performed by `save_data` (the subsequent file
write touches no container state whether it succeeds or raises). -/
def save_data_mem (maxPerIp : Nat) (c : Container) :
    Container × Except String Unit :=
  let d := drainLoop c.heap.length c []
  refillLoop maxPerIp d.1 d.2

/-! ## Heap invariants and reachability -/

/-- The min-heap ordering: every non-root slot is at least its parent. -/
def heapOrd (h : List Item) : Prop :=
  ∀ j, 0 < j → j < h.length →
    (hget h ((j - 1) / 2)).priority ≤ (hget h j).priority

/-- Every item's stored `pos` field is its actual array index. -/
def posOk (h : List Item) : Prop :=
  ∀ i, i < h.length → (hget h i).pos = i

/-- `index_map` maps each stored item's session id to its array position and
nothing else. -/
def imOk (h : List Item) (im : List (String × Nat)) : Prop :=
  (∀ i, i < h.length → dget im (hget h i).sid = some i) ∧
  (∀ s j, dget im s = some j → j < h.length ∧ (hget h j).sid = s)

/-- Uniqueness of dictionary keys. -/
abbrev keysNodup {V : Type} (m : List (String × V)) : Prop :=
  (m.map Prod.fst).Nodup

/-- The internal well-formedness of the indexed heap. -/
def hInv (h : List Item) (im : List (String × Nat)) : Prop :=
  posOk h ∧ imOk h im ∧ keysNodup im ∧ heapOrd h

/-- The identity of an item apart from its position field (priority, id,
payload, owning address). -/
def proj (it : Item) : Nat × String × Storage × Option String :=
  (it.priority, it.sid, it.data, it.ip)

/-- The structural part of the heap invariant preserved by `_swap`. -/
def swapInv (h : List Item) (im : List (String × Nat)) : Prop :=
  posOk h ∧ imOk h im ∧ keysNodup im

/-- The full internal invariant of the indexed heap. -/
def Inv (c : Container) : Prop :=
  swapInv c.heap c.index_map ∧ heapOrd c.heap

/-- The property asserted by the specification for the heap: min-heap
ordering, and for every stored item the index map gives its actual position,
which is also the stored position field. -/
def ClaimInv (c : Container) : Prop :=
  heapOrd c.heap ∧
  ∀ i, i < c.heap.length →
    dget c.index_map (hget c.heap i).sid = some i ∧ (hget c.heap i).pos = i

/-- `_update_priority` as a state transformer: a raise leaves the state
unchanged. -/
def updateOrSame (c : Container) (sid : String) (p : Nat) : Container :=
  match updateRaw c sid p with
  | Except.ok c' => c'
  | Except.error _ => c

/-- States reachable from a fresh container by arbitrary sequences of the
heap operations `_push` / `_pop` / `_update_priority` (no restriction on the
pushed ids — the claim as stated). -/
inductive ReachRaw : Container → Prop where
  | init (n : Nat) : ReachRaw (Container.init n)
  | push {c : Container} (p : Nat) (sid : String) (d : Storage)
      (ip : Option String) : ReachRaw c → ReachRaw (pushRaw c p sid d ip)
  | pop {c : Container} : ReachRaw c → ReachRaw (popRaw c).2
  | update {c : Container} (sid : String) (p : Nat) :
      ReachRaw c → ReachRaw (updateOrSame c sid p)

/-- Reachability by the same operations, where every `_push` uses a session
id not currently in the index (as every call site of the source does). -/
inductive ReachFresh : Container → Prop where
  | init (n : Nat) : ReachFresh (Container.init n)
  | push {c : Container} (p : Nat) (sid : String) (d : Storage)
      (ip : Option String) (hfresh : dget c.index_map sid = none) :
      ReachFresh c → ReachFresh (pushRaw c p sid d ip)
  | pop {c : Container} : ReachFresh c → ReachFresh (popRaw c).2
  | update {c : Container} (sid : String) (p : Nat) :
      ReachFresh c → ReachFresh (updateOrSame c sid p)

/-! ## Spec-side descriptions of `bind_jwt_to_session_id`

`bindSpecClaim` follows the words of the claim (and of §4.3 of the spec):
the eviction check counts the bindings *after* the token/session removal.
`bindSpecAmend` is the amended description: the check reads the order-list
length *before* the removal.  Both are written independently of the
implementation for comparison with it. -/

/-- The binding table rewrite described by the claim: remove matching
bindings, then evict the oldest-bound token iff the table is still at or
over the cap *after* that removal, then append the new binding. -/
def bindSpecClaim (c : Container) (jwtToken sid : String) : Container :=
  let removed : String → Bool := fun t =>
    t = jwtToken ∨ dget c.jwt_to_session t = some sid
  let map1 := c.jwt_to_session.filter (fun p => ¬ removed p.1)
  let order1 := c.jwt_to_session_order.filter (fun t => ¬ removed t)
  let evict : Option String :=
    if c.maxSessions ≤ map1.length then order1.head? else none
  let map2 := map1.filter (fun p => ¬ evict = some p.1)
  let order2 := order1.filter (fun t => ¬ evict = some t)
  { c with
    jwt_to_session := dset map2 jwtToken sid
    jwt_to_session_order := order2 ++ [jwtToken] }

/-- The amended description: identical except that the eviction check reads
the pre-removal length of the binding-order list. -/
def bindSpecAmend (c : Container) (jwtToken sid : String) : Container :=
  let evict : Option String :=
    if c.maxSessions ≤ c.jwt_to_session_order.length
    then c.jwt_to_session_order.head? else none
  { c with
    jwt_to_session := dset (c.jwt_to_session.filter
      (fun p => ¬((p.1 = jwtToken ∨ dget c.jwt_to_session p.1 = some sid)
        ∨ evict = some p.1))) jwtToken sid
    jwt_to_session_order :=
      (c.jwt_to_session_order.filter
        (fun t => ¬((t = jwtToken ∨ dget c.jwt_to_session t = some sid)
          ∨ evict = some t))) ++ [jwtToken] }

/-! ## Iterated operations for the store-level claims -/

/-- Iterate `InMemoryModel.add` over a list of records, collecting the
records returned by the successful calls (a raise leaves the store
unchanged and the sequence continues, as each HTTP request is handled
independently). -/
def runAdds (maxIdLen : Nat) (m : InMemoryModel) :
    List DictObj → InMemoryModel × List DictObj
  | [] => (m, [])
  | obj :: rest =>
    match InMemoryModel.add maxIdLen m obj with
    | Except.error _ => runAdds maxIdLen m rest
    | Except.ok (m1, r) =>
      let acc := runAdds maxIdLen m1 rest
      (acc.1, r :: acc.2)

/-- The object store after `inputs.length` successful `add` calls from a
fresh store of capacity `N`: the live window is the last `min k N` assigned
ids, oldest first. -/
def modelAfter (N : Nat) (inputs : List DictObj) : InMemoryModel :=
  let k := inputs.length
  let w := min k N
  let lo := k + 1 - w
  ⟨N, (List.range' lo w).map
      (fun i => (Nat.repr i, dset (inputs.getD (i - 1) []) "id" (Nat.repr i))),
   (List.range' lo w).map Nat.repr, k + 1⟩

/-- Iterate `InMemoryLinks.add` over a list of (source, target) pairs (a
raise leaves the store unchanged). -/
def runLinkAdds (maxIdLen : Nat) (l : InMemoryLinks) :
    List (String × String) → InMemoryLinks
  | [] => l
  | (s, t) :: rest =>
    match InMemoryLinks.add maxIdLen l s t with
    | Except.error _ => runLinkAdds maxIdLen l rest
    | Except.ok l1 => runLinkAdds maxIdLen l1 rest

/-! ## Token-table correspondence -/

/-- The order list and the binding table hold the same set of tokens. -/
def tokSetEq (c : Container) : Prop :=
  ∀ t, t ∈ c.jwt_to_session_order ↔ (dget c.jwt_to_session t).isSome

/-- States reachable by the public container operations, where a token
resolved by `get_storage` never has a bound session id that is itself a
bound token (token values and session-id values do not coincide — true of
the JWT / UUID values the server generates). -/
inductive ReachTok (cfg : Cfg) : Container → Prop where
  | init (n : Nat) : ReachTok cfg (Container.init n)
  | gs {c : Container} (cookie ip jwt : Option String) (now : Nat)
      (freshId : String)
      (hdisj : ∀ tok s, jwt = some tok → dget c.jwt_to_session tok = some s →
        dget c.jwt_to_session s = none) :
      ReachTok cfg c →
      ReachTok cfg (Container.get_storage cfg c cookie ip jwt now freshId).1
  | bind {c : Container} (tok sid : String) : ReachTok cfg c →
      ReachTok cfg (Container.bind_jwt_to_session_id c tok sid).1
  | push {c : Container} (p : Nat) (sid : String) (d : Storage)
      (ip : Option String) : ReachTok cfg c →
      ReachTok cfg (Container.push cfg.maxPerIp c p sid d ip).1
  | pop {c : Container} : ReachTok cfg c → ReachTok cfg (Container.pop c).2

/-! ## Address-quota consistency (snapshot non-destructiveness) -/

/-- The normalized bucket key owning a heap item (an absent or empty
address owns nothing). -/
def itemKey (it : Item) : Option String :=
  if truthy it.ip then some (normalizeIp (it.ip.getD "")) else none

/-- The bucket key as a function of the position-independent content. -/
def keyOfProj (x : Nat × String × Storage × Option String) : Option String :=
  if truthy x.2.2.2 then some (normalizeIp (x.2.2.2.getD "")) else none

/-- Some live heap item carries this session id under this bucket key. -/
def liveAt (h : List Item) (sid k : String) : Prop :=
  ∃ i, i < h.length ∧ (hget h i).sid = sid ∧ itemKey (hget h i) = some k

/-- The part of the address-bookkeeping consistency maintained while
draining: bucket keys are unique, every bucket is nonempty, and every
bucket member is a live session whose saved address normalizes to the
bucket key. -/
def DrainInv (c : Container) : Prop :=
  keysNodup c.ip_to_sessions ∧
  ∀ p ∈ c.ip_to_sessions, p.2 ≠ [] ∧ ∀ sid ∈ p.2, liveAt c.heap sid p.1

/-- Number of heap items owned by a bucket key. -/
def countKey (l : List Item) (k : String) : Nat :=
  (l.filter (fun x => itemKey x = some k)).length

/-- Full consistency of the address-quota bookkeeping: `DrainInv`, plus
every bucket is duplicate-free of length at most `K`, and every live
session with a truthy address is listed in its bucket. -/
def CleanInv (K : Nat) (c : Container) : Prop :=
  DrainInv c ∧
  (∀ p ∈ c.ip_to_sessions, p.2.Nodup ∧ p.2.length ≤ K) ∧
  (∀ i, i < c.heap.length → ∀ k, itemKey (hget c.heap i) = some k →
    (hget c.heap i).sid ∈ (dget c.ip_to_sessions k).getD [])

/-! ## Decimal renderings: parsing back `Nat.repr` -/

/-- One step of reading a decimal numeral. -/
def digStep (a : Nat) (c : Char) : Nat := 10 * a + (c.toNat - 48)

/-- Read a decimal numeral. -/
def parseDigits (l : List Char) : Nat := l.foldl digStep 0

/-! ## Concrete configurations and traces used by the scenario claims -/

/-- A configuration with per-address cap 2. -/
def cfgIp2 : Cfg := ⟨2, 60, 200, 1000, 500, 500⟩

/-- A configuration with per-address cap 1. -/
def cfgIp1 : Cfg := ⟨1, 60, 200, 1000, 500, 500⟩

/-- C5 trace: three sessions created from address `1.2.3.4` under cap 2. -/
def traceC5 : Container :=
  (Container.get_storage cfgIp2
    (Container.get_storage cfgIp2
      (Container.get_storage cfgIp2 (Container.init 100)
        (some "s1") (some "1.2.3.4") none 1 "u1").1
      (some "s2") (some "1.2.3.4") none 2 "u2").1
    (some "s3") (some "1.2.3.4") none 3 "u3").1

/-- C2 trace, first four operations: `s1` created from an IPv6 address,
touched from `9.9.9.9` (reattribution: the raw saved address misses the
normalized bucket), then forced out by `s2` on the IPv6 bucket; creating
`s3` from `9.9.9.9` hits the dead `s1` left in that bucket. -/
def traceC2d : Container × Except String (String × Storage) :=
  Container.get_storage cfgIp1
    (Container.get_storage cfgIp1
      (Container.get_storage cfgIp1
        (Container.get_storage cfgIp1 (Container.init 100)
          (some "s1") (some "a:b:c:d:1") none 1 "u1").1
        (some "s1") (some "9.9.9.9") none 2 "u2").1
      (some "s2") (some "a:b:c:d:2") none 3 "u3").1
    (some "s3") (some "9.9.9.9") none 4 "u4"

/-- C2 trace, fifth (completed) operation from an unrelated address. -/
def traceC2e : Container × Except String (String × Storage) :=
  Container.get_storage cfgIp1 traceC2d.1 (some "s4") (some "7.7.7.7") none 5 "u5"

/-- C10 trace, stage 1: create the session `sid`. -/
def traceC10a : Container :=
  (Container.get_storage cfgIp2 (Container.init 10)
    (some "sid") none none 1 "f1").1

/-- C10 trace, stage 2: bind the token `tok` to `sid`. -/
def traceC10b : Container :=
  (traceC10a.bind_jwt_to_session_id "tok" "sid").1

/-- C10 trace, final: resolve `tok` with no cookie; the resolution branch
rewrites the order list. -/
def traceC10 : Container :=
  (Container.get_storage cfgIp2 traceC10b none none (some "tok") 2 "f2").1


/-- C3 counterexample state: a table at the cap (2) holding two bindings. -/
def bindCexState : Container :=
  { Container.init 2 with
    jwt_to_session := [("t1", "s1"), ("t2", "s2")]
    jwt_to_session_order := ["t1", "t2"] }

/-- A registered user record. -/
def regUser : DictObj :=
  [("email", "a@b.c"), ("password", "h"), ("username", "alice"),
   ("bio", ""), ("id", "1")]

/-- A storage whose user store holds exactly one registered user. -/
def regStorage : Storage :=
  ⟨⟨60, [("1", regUser)], ["1"], 2⟩,
   freshModel 200, freshModel 1000, ⟨500, []⟩, ⟨500, []⟩⟩


/-- A container holding two live sessions that share one over-cap address
bucket — a state the quota code intends to rule out, but which the
normalization slip recorded for C2 makes reachable. -/
def c8CexState : Container :=
  { maxSessions := 10
    heap := [⟨1, "s1", regStorage, 0, some "9.9.9.9"⟩,
             ⟨2, "s2", regStorage, 1, some "9.9.9.9"⟩]
    index_map := [("s1", 0), ("s2", 1)]
    jwt_to_session := []
    jwt_to_session_order := []
    ip_to_sessions := [("9.9.9.9", ["s1", "s2"])] }

/-- C4 counterexample state: a container whose only session holds the
registered user. -/
def c4CexState : Container :=
  pushRaw (Container.init 100) 1 "s1" regStorage none

/-- C4 witness state: two sessions referencing the same storage
(multi-device login); popping evicts the older one. -/
def c4WitState : Container :=
  pushRaw (pushRaw (Container.init 100) 1 "s1" regStorage none)
    2 "s2" regStorage none

/-- C1 counterexample state: two `_push` calls with the same session id. -/
def c1CexState : Container :=
  pushRaw (pushRaw (Container.init 100) 1 "a" regStorage none) 2 "a" regStorage none

/-- A container with one live session `s` bound to token `t` (C7 witness
input). -/
def c7WitState : Container :=
  { pushRaw (Container.init 5) 1 "s" regStorage none with
    jwt_to_session := [("t", "s")]
    jwt_to_session_order := ["t"] }

/-! # Theorems -/

/-! ## Auxiliary dictionary facts -/

theorem dget_eq_none {V : Type} (m : List (String × V)) (k : String)
    (h : ∀ p ∈ m, p.1 ≠ k) : dget m k = none := by
  induction m with
  | nil => rfl
  | cons hd t ih =>
    obtain ⟨k0, v0⟩ := hd
    have h0 : k0 ≠ k := h (k0, v0) (List.mem_cons_self _ _)
    simp only [dget, if_neg h0]
    exact ih fun p hp => h p (List.mem_cons_of_mem _ hp)

theorem dget_dset_eq {V : Type} (m : List (String × V)) (k : String) (v : V) :
    dget (dset m k v) k = some v := by
  induction m with
  | nil => simp [dget, dset]
  | cons hd t ih =>
    obtain ⟨k0, v0⟩ := hd
    by_cases hk : k0 = k
    · simp [dget, dset, hk]
    · simp [dget, dset, hk, ih]

theorem dget_dset_ne {V : Type} (m : List (String × V)) (k k' : String)
    (v : V) (h : k ≠ k') : dget (dset m k v) k' = dget m k' := by
  induction m with
  | nil => simp [dget, dset, h]
  | cons hd t ih =>
    obtain ⟨k0, v0⟩ := hd
    by_cases hk : k0 = k
    · subst hk
      simp [dget, dset, h]
    · by_cases hk' : k0 = k'
      · subst hk'
        have h2 : ¬k0 = k := hk
        simp [dget, dset, h2]
      · simp [dget, dset, hk, hk', ih]

theorem dget_ddel_eq {V : Type} (m : List (String × V)) (k : String)
    (hnd : (m.map Prod.fst).Nodup) : dget (ddel m k) k = none := by
  induction m with
  | nil => rfl
  | cons hd t ih =>
    obtain ⟨k0, v0⟩ := hd
    simp only [List.map_cons, List.nodup_cons, List.mem_map] at hnd
    by_cases hk : k0 = k
    · subst hk
      simp only [ddel, if_pos rfl]
      exact dget_eq_none t k0 fun p hp he => hnd.1 ⟨p, hp, he⟩
    · simp only [ddel, if_neg hk, dget, if_neg hk]
      exact ih hnd.2

theorem dget_ddel_ne {V : Type} (m : List (String × V)) (k k' : String)
    (h : k ≠ k') : dget (ddel m k) k' = dget m k' := by
  induction m with
  | nil => rfl
  | cons hd t ih =>
    obtain ⟨k0, v0⟩ := hd
    by_cases hk : k0 = k
    · subst hk
      simp [dget, ddel, h]
    · simp [dget, ddel, hk, ih]

theorem dget_of_mem {V : Type} (m : List (String × V)) (p : String × V)
    (hnd : keysNodup m) (hp : p ∈ m) : dget m p.1 = some p.2 := by
  induction m with
  | nil => cases hp
  | cons hd t ih =>
    obtain ⟨k0, v0⟩ := hd
    unfold keysNodup at hnd
    simp only [List.map_cons, List.nodup_cons, List.mem_map] at hnd
    cases hp with
    | head => simp [dget]
    | tail _ hp =>
      have hk : k0 ≠ p.1 := by
        intro he
        exact hnd.1 ⟨p, hp, he.symm⟩
      simp only [dget, if_neg hk]
      exact ih hnd.2 hp

/-! ## Indexing and key-uniqueness toolbox -/

theorem hget_set_eq (h : List Item) (i : Nat) (a : Item) (hi : i < h.length) :
    hget (h.set i a) i = a := by
  induction h generalizing i with
  | nil => cases hi
  | cons hd t ih =>
    cases i with
    | zero => rfl
    | succ n => exact ih n (by simpa using hi)

theorem hget_set_ne (h : List Item) (i j : Nat) (a : Item) (hij : i ≠ j) :
    hget (h.set i a) j = hget h j := by
  induction h generalizing i j with
  | nil => cases i <;> rfl
  | cons hd t ih =>
    cases i with
    | zero =>
      cases j with
      | zero => exact absurd rfl hij
      | succ m => rfl
    | succ n =>
      cases j with
      | zero => rfl
      | succ m => exact ih n m (fun he => hij (by rw [he]))

theorem hget_append_lt (h l : List Item) (k : Nat) (hk : k < h.length) :
    hget (h ++ l) k = hget h k := by
  induction h generalizing k with
  | nil => cases hk
  | cons hd t ih =>
    cases k with
    | zero => rfl
    | succ n => exact ih n (by simpa using hk)

theorem hget_append_len (h : List Item) (a : Item) :
    hget (h ++ [a]) h.length = a := by
  induction h with
  | nil => rfl
  | cons hd t ih => exact ih

theorem hget_dropLast (h : List Item) (k : Nat) (hk : k + 1 < h.length) :
    hget h.dropLast k = hget h k := by
  induction h generalizing k with
  | nil => cases hk
  | cons hd t ih =>
    cases t with
    | nil => simp at hk
    | cons hd2 t2 =>
      cases k with
      | zero => rfl
      | succ n => exact ih n (by simpa using hk)

theorem hget_head (h : List Item) (root : Item) (hh : h.head? = some root) :
    hget h 0 = root := by
  cases h with
  | nil => cases hh
  | cons hd t =>
    cases hh
    rfl

theorem hget_getLast (h : List Item) (last : Item) (hl : h.getLast? = some last) :
    hget h (h.length - 1) = last := by
  induction h with
  | nil => cases hl
  | cons hd t ih =>
    cases t with
    | nil =>
      cases hl
      rfl
    | cons hd2 t2 =>
      rw [List.getLast?_cons_cons] at hl
      have := ih hl
      simpa using this

theorem mem_keys_dset {V : Type} (m : List (String × V)) (k s : String) (v : V)
    (hs : s ∈ (dset m k v).map Prod.fst) : s ∈ m.map Prod.fst ∨ s = k := by
  induction m with
  | nil =>
    simp only [dset, List.map_cons, List.map_nil, List.mem_singleton] at hs
    exact Or.inr hs
  | cons hd t ih =>
    obtain ⟨k0, v0⟩ := hd
    by_cases hk : k0 = k
    · subst hk
      have he : dset ((k0, v0) :: t) k0 v = (k0, v) :: t := by simp [dset]
      rw [he, List.map_cons] at hs
      rcases List.mem_cons.mp hs with h | h
      · exact Or.inr h
      · exact Or.inl (List.mem_cons_of_mem _ h)
    · simp only [dset, if_neg hk, List.map_cons] at hs
      rcases List.mem_cons.mp hs with h | h
      · subst h
        exact Or.inl (List.mem_cons_self _ _)
      · rcases ih h with h2 | h2
        · exact Or.inl (List.mem_cons_of_mem _ h2)
        · exact Or.inr h2

theorem keysNodup_dset {V : Type} (m : List (String × V)) (k : String) (v : V)
    (hnd : keysNodup m) : keysNodup (dset m k v) := by
  induction m with
  | nil => simp [dset, keysNodup]
  | cons hd t ih =>
    obtain ⟨k0, v0⟩ := hd
    simp only [keysNodup, List.map_cons, List.nodup_cons] at hnd
    by_cases hk : k0 = k
    · subst hk
      have he : dset ((k0, v0) :: t) k0 v = (k0, v) :: t := by simp [dset]
      rw [he]
      simp only [keysNodup, List.map_cons, List.nodup_cons]
      exact hnd
    · simp only [dset, if_neg hk, keysNodup, List.map_cons, List.nodup_cons]
      refine ⟨?_, ih hnd.2⟩
      intro hmem
      cases mem_keys_dset t k k0 v hmem with
      | inl h => exact hnd.1 h
      | inr h => exact hk h

theorem keysNodup_ddel {V : Type} (m : List (String × V)) (k : String)
    (hnd : keysNodup m) : keysNodup (ddel m k) := by
  induction m with
  | nil => exact hnd
  | cons hd t ih =>
    obtain ⟨k0, v0⟩ := hd
    simp only [keysNodup, List.map_cons, List.nodup_cons] at hnd
    by_cases hk : k0 = k
    · simp only [ddel, if_pos hk]
      exact hnd.2
    · simp only [ddel, if_neg hk, keysNodup, List.map_cons, List.nodup_cons]
      refine ⟨?_, ih hnd.2⟩
      intro hmem
      refine hnd.1 ?_
      clear ih hnd
      induction t with
      | nil => cases hmem
      | cons hd2 t2 ih2 =>
        obtain ⟨k2, v2⟩ := hd2
        by_cases hk2 : k2 = k
        · simp only [ddel, if_pos hk2, List.map_cons, List.mem_cons] at hmem ⊢
          exact Or.inr hmem
        · simp only [ddel, if_neg hk2, List.map_cons, List.mem_cons] at hmem ⊢
          cases hmem with
          | inl h => exact Or.inl h
          | inr h => exact Or.inr (ih2 h)

theorem keysNodup_filter {V : Type} (m : List (String × V))
    (p : String × V → Bool) (hnd : keysNodup m) : keysNodup (m.filter p) := by
  induction m with
  | nil => exact hnd
  | cons hd t ih =>
    simp only [keysNodup, List.map_cons, List.nodup_cons] at hnd
    by_cases hp : p hd = true
    · simp only [List.filter_cons_of_pos hp, keysNodup, List.map_cons,
        List.nodup_cons]
      refine ⟨?_, ih hnd.2⟩
      intro hmem
      rw [List.mem_map] at hmem
      obtain ⟨q, hq, hqe⟩ := hmem
      exact hnd.1 (List.mem_map.mpr ⟨q, List.mem_of_mem_filter hq, hqe⟩)
    · simp only [List.filter_cons_of_neg hp]
      exact ih hnd.2

/-! ## `_swap` preserves the structural invariant and the contents -/

theorem hget_cons_zero (hd : Item) (t : List Item) : hget (hd :: t) 0 = hd := rfl

theorem hget_cons_succ (hd : Item) (t : List Item) (n : Nat) :
    hget (hd :: t) (n + 1) = hget t n := rfl

theorem multiset_map_set (l : List Item) (i : Nat) (a : Item)
    (hi : i < l.length) :
    (((l.set i a).map proj : List _) : Multiset _) + {proj (hget l i)}
      = ((l.map proj : List _) : Multiset _) + {proj a} := by
  induction l generalizing i with
  | nil => cases hi
  | cons hd t ih =>
    cases i with
    | zero =>
      simp only [List.set_cons_zero, List.map_cons, ← Multiset.cons_coe,
        hget_cons_zero]
      simp only [← Multiset.singleton_add]
      rw [add_comm ({proj a} : Multiset _) _, add_assoc, add_assoc,
        add_comm ({proj hd} : Multiset _) _, ← add_assoc]
    | succ n =>
      have hn : n < t.length := by simpa using hi
      simp only [List.set_cons_succ, List.map_cons, ← Multiset.cons_coe,
        hget_cons_succ, Multiset.cons_add]
      rw [ih n hn]

theorem cswap_length (h : List Item) (im : List (String × Nat)) (i j : Nat) :
    (cswap h im i j).1.length = h.length := by
  simp [cswap]

theorem cswap_hget_i (h : List Item) (im : List (String × Nat)) (i j : Nat)
    (hi : i < h.length) (hij : i ≠ j) :
    hget (cswap h im i j).1 i = { hget h j with pos := i } := by
  unfold cswap
  rw [hget_set_ne _ j i _ (fun he => hij he.symm), hget_set_eq _ i _ hi]

theorem cswap_hget_j (h : List Item) (im : List (String × Nat)) (i j : Nat)
    (hj : j < h.length) :
    hget (cswap h im i j).1 j = { hget h i with pos := j } := by
  unfold cswap
  rw [hget_set_eq _ j _ (by simpa using hj)]

theorem cswap_hget_other (h : List Item) (im : List (String × Nat))
    (i j k : Nat) (hki : k ≠ i) (hkj : k ≠ j) :
    hget (cswap h im i j).1 k = hget h k := by
  unfold cswap
  rw [hget_set_ne _ j k _ (fun he => hkj he.symm),
    hget_set_ne _ i k _ (fun he => hki he.symm)]

theorem cswap_im (h : List Item) (im : List (String × Nat)) (i j : Nat)
    (s : String) :
    dget (cswap h im i j).2 s
      = if s = (hget h j).sid then some i
        else if s = (hget h i).sid then some j
        else dget im s := by
  unfold cswap
  by_cases h1 : s = (hget h j).sid
  · rw [if_pos h1, h1, dget_dset_eq]
  · rw [if_neg h1, dget_dset_ne _ _ _ _ (fun he => h1 he.symm)]
    by_cases h2 : s = (hget h i).sid
    · rw [if_pos h2, h2, dget_dset_eq]
    · rw [if_neg h2, dget_dset_ne _ _ _ _ (fun he => h2 he.symm)]

theorem proj_setPos (x : Item) (n : Nat) : proj { x with pos := n } = proj x := rfl

theorem sid_setPos (x : Item) (n : Nat) : ({ x with pos := n } : Item).sid = x.sid := rfl

theorem priority_setPos (x : Item) (n : Nat) :
    ({ x with pos := n } : Item).priority = x.priority := rfl

theorem cswap_mul (h : List Item) (im : List (String × Nat)) (i j : Nat)
    (hi : i < h.length) (hj : j < h.length) (hij : i ≠ j) :
    (((cswap h im i j).1.map proj : List _)
        : Multiset (Nat × String × Storage × Option String))
      = ((h.map proj : List _)
        : Multiset (Nat × String × Storage × Option String)) := by
  unfold cswap
  have hj1 : j < (h.set i { hget h j with pos := i }).length := by simpa using hj
  have e1 := multiset_map_set (h.set i { hget h j with pos := i }) j
    { hget h i with pos := j } hj1
  have e2 := multiset_map_set h i { hget h j with pos := i } hi
  rw [hget_set_ne _ i j _ hij] at e1
  rw [proj_setPos] at e1 e2
  exact add_right_cancel (e1.trans e2)

theorem cswap_swapInv (h : List Item) (im : List (String × Nat)) (i j : Nat)
    (hi : i < h.length) (hj : j < h.length) (hij : i ≠ j)
    (hinv : swapInv h im) :
    swapInv (cswap h im i j).1 (cswap h im i j).2 := by
  obtain ⟨hpos, ⟨hfwd, hbwd⟩, hnd⟩ := hinv
  have hsid : (hget h i).sid ≠ (hget h j).sid := by
    intro he
    have h1 := hfwd i hi
    rw [he, hfwd j hj] at h1
    exact hij (Option.some.inj h1).symm
  have hlen := cswap_length h im i j
  refine ⟨?_, ⟨?_, ?_⟩, ?_⟩
  · intro k hk
    rw [hlen] at hk
    by_cases hki : k = i
    · subst hki
      rw [cswap_hget_i h im k j hk hij]
    · by_cases hkj : k = j
      · subst hkj
        rw [cswap_hget_j h im i k hk]
      · rw [cswap_hget_other h im i j k hki hkj]
        exact hpos k hk
  · intro k hk
    rw [hlen] at hk
    by_cases hki : k = i
    · subst hki
      rw [cswap_hget_i h im k j hk hij, cswap_im h im k j, sid_setPos,
        if_pos rfl]
    · by_cases hkj : k = j
      · subst hkj
        rw [cswap_hget_j h im i k hk, cswap_im h im i k, sid_setPos,
          if_neg hsid, if_pos rfl]
      · rw [cswap_hget_other h im i j k hki hkj, cswap_im h im i j]
        have hk1 : dget im (hget h k).sid = some k := hfwd k hk
        have hne1 : ¬(hget h k).sid = (hget h j).sid := by
          intro he
          have h2 := hfwd j hj
          rw [← he, hk1] at h2
          exact hkj (Option.some.inj h2)
        have hne2 : ¬(hget h k).sid = (hget h i).sid := by
          intro he
          have h2 := hfwd i hi
          rw [← he, hk1] at h2
          exact hki (Option.some.inj h2)
        rw [if_neg hne1, if_neg hne2]
        exact hk1
  · intro s n hsn
    rw [cswap_im h im i j] at hsn
    rw [hlen]
    by_cases h1 : s = (hget h j).sid
    · rw [if_pos h1] at hsn
      cases hsn
      exact ⟨hi, by rw [cswap_hget_i h im i j hi hij, h1]⟩
    · rw [if_neg h1] at hsn
      by_cases h2 : s = (hget h i).sid
      · rw [if_pos h2] at hsn
        cases hsn
        exact ⟨hj, by rw [cswap_hget_j h im i j hj, h2]⟩
      · rw [if_neg h2] at hsn
        obtain ⟨hn, hsn2⟩ := hbwd s n hsn
        have hni : n ≠ i := fun he => h2 (by rw [← hsn2, he])
        have hnj : n ≠ j := fun he => h1 (by rw [← hsn2, he])
        exact ⟨hn, by rw [cswap_hget_other h im i j n hni hnj]; exact hsn2⟩
  · exact keysNodup_dset _ _ _ (keysNodup_dset _ _ _ hnd)

/-! ## Sift-up and sift-down restore the heap order -/

/-- `_sift_up` correctness: from a state ordered everywhere except possibly
on the edge into `i`, and whose grandparent already bounds `i`'s children,
sifting up restores the full ordering while preserving the structural
invariant, the length and the contents. -/
theorem sift_up_spec (fuel : Nat) (h : List Item) (im : List (String × Nat))
    (i : Nat) (hfuel : i ≤ fuel) (hi : i < h.length) (hinv : swapInv h im)
    (hexc : ∀ j, 0 < j → j < h.length → j ≠ i →
      (hget h ((j - 1) / 2)).priority ≤ (hget h j).priority)
    (hgrand : 0 < i → ∀ j, 0 < j → j < h.length → (j - 1) / 2 = i →
      (hget h ((i - 1) / 2)).priority ≤ (hget h j).priority) :
    swapInv (sift_up fuel h im i).1 (sift_up fuel h im i).2
    ∧ heapOrd (sift_up fuel h im i).1
    ∧ (sift_up fuel h im i).1.length = h.length
    ∧ (((sift_up fuel h im i).1.map proj : List _)
        : Multiset (Nat × String × Storage × Option String))
      = ((h.map proj : List _) : Multiset _) := by
  induction fuel generalizing h im i with
  | zero =>
    have hi0 : i = 0 := by omega
    subst hi0
    refine ⟨hinv, ?_, rfl, rfl⟩
    intro j hj0 hjl
    exact hexc j hj0 hjl (by omega)
  | succ fuel ih =>
    by_cases hi0 : i = 0
    · subst hi0
      simp only [sift_up, if_pos rfl]
      refine ⟨hinv, ?_, rfl, rfl⟩
      intro j hj0 hjl
      exact hexc j hj0 hjl (by omega)
    · by_cases hle : (hget h ((i - 1) / 2)).priority ≤ (hget h i).priority
      · have hred : sift_up (fuel + 1) h im i = (h, im) := by
          simp only [sift_up, if_neg hi0, if_pos hle]
        rw [hred]
        refine ⟨hinv, ?_, rfl, rfl⟩
        intro j hj0 hjl
        by_cases hji : j = i
        · subst hji
          exact hle
        · exact hexc j hj0 hjl hji
      · have hred : sift_up (fuel + 1) h im i
            = sift_up fuel (cswap h im i ((i - 1) / 2)).1
                (cswap h im i ((i - 1) / 2)).2 ((i - 1) / 2) := by
          simp only [sift_up, if_neg hi0, if_neg hle]
        rw [hred]
        have hp0 : 0 < i := by omega
        have hpi : (i - 1) / 2 < i := by omega
        have hplen : (i - 1) / 2 < h.length := by omega
        have hne : i ≠ (i - 1) / 2 := by omega
        have hinv' := cswap_swapInv h im i ((i - 1) / 2) hi hplen hne hinv
        have hlen' := cswap_length h im i ((i - 1) / 2)
        have hpri_i : (hget (cswap h im i ((i - 1) / 2)).1 i).priority
            = (hget h ((i - 1) / 2)).priority := by
          rw [cswap_hget_i h im i ((i - 1) / 2) hi hne, priority_setPos]
        have hpri_p : (hget (cswap h im i ((i - 1) / 2)).1 ((i - 1) / 2)).priority
            = (hget h i).priority := by
          rw [cswap_hget_j h im i ((i - 1) / 2) hplen, priority_setPos]
        have hpri_o : ∀ k, k ≠ i → k ≠ (i - 1) / 2 →
            (hget (cswap h im i ((i - 1) / 2)).1 k).priority
              = (hget h k).priority := by
          intro k h1 h2
          rw [cswap_hget_other h im i ((i - 1) / 2) k h1 h2]
        have hexc' : ∀ j, 0 < j → j < (cswap h im i ((i - 1) / 2)).1.length →
            j ≠ (i - 1) / 2 →
            (hget (cswap h im i ((i - 1) / 2)).1 ((j - 1) / 2)).priority
              ≤ (hget (cswap h im i ((i - 1) / 2)).1 j).priority := by
          intro j hj0 hjl hjp
          rw [hlen'] at hjl
          by_cases hji : j = i
          · subst hji
            rw [hpri_p, hpri_i]
            omega
          · have hqj : (j - 1) / 2 < j := by omega
            by_cases hqi : (j - 1) / 2 = i
            · have hji2 : i < j := by omega
              rw [hqi, hpri_i, hpri_o j hji (by omega)]
              exact hgrand hp0 j hj0 hjl hqi
            · by_cases hqp : (j - 1) / 2 = (i - 1) / 2
              · rw [hqp, hpri_p, hpri_o j hji hjp]
                have h1 := hexc j hj0 hjl hji
                rw [hqp] at h1
                omega
              · rw [hpri_o _ hqi hqp, hpri_o j hji hjp]
                exact hexc j hj0 hjl hji
        have hgrand' : 0 < (i - 1) / 2 →
            ∀ j, 0 < j → j < (cswap h im i ((i - 1) / 2)).1.length →
            (j - 1) / 2 = (i - 1) / 2 →
            (hget (cswap h im i ((i - 1) / 2)).1 (((i - 1) / 2 - 1) / 2)).priority
              ≤ (hget (cswap h im i ((i - 1) / 2)).1 j).priority := by
          intro hpp j hj0 hjl hjq
          rw [hlen'] at hjl
          have hgg : ((i - 1) / 2 - 1) / 2 < (i - 1) / 2 := by omega
          rw [hpri_o _ (by omega) (by omega)]
          have h1 := hexc ((i - 1) / 2) hpp hplen (by omega)
          by_cases hji : j = i
          · subst hji
            rw [hpri_i]
            exact h1
          · rw [hpri_o j hji (by omega)]
            have h2 := hexc j hj0 hjl hji
            rw [hjq] at h2
            omega
        have hres := ih (cswap h im i ((i - 1) / 2)).1
          (cswap h im i ((i - 1) / 2)).2 ((i - 1) / 2) (by omega)
          (by rw [hlen']; omega) hinv' hexc' hgrand'
        refine ⟨hres.1, hres.2.1, ?_, ?_⟩
        · rw [hres.2.2.1, hlen']
        · rw [hres.2.2.2, cswap_mul h im i ((i - 1) / 2) hi hplen hne]

/-- `_sift_down` correctness: from a state ordered on every edge not
leaving `i`, and where `i`'s parent already bounds `i`'s children, sifting
down restores the full ordering while preserving the structural invariant,
the length and the contents. -/
theorem sift_down_spec (fuel : Nat) (h : List Item) (im : List (String × Nat))
    (i : Nat) (hfuel : h.length ≤ fuel + i) (hinv : swapInv h im)
    (hexc : ∀ j, 0 < j → j < h.length → (j - 1) / 2 ≠ i →
      (hget h ((j - 1) / 2)).priority ≤ (hget h j).priority)
    (habove : 0 < i → ∀ j, 0 < j → j < h.length → (j - 1) / 2 = i →
      (hget h ((i - 1) / 2)).priority ≤ (hget h j).priority) :
    swapInv (sift_down fuel h im i).1 (sift_down fuel h im i).2
    ∧ heapOrd (sift_down fuel h im i).1
    ∧ (sift_down fuel h im i).1.length = h.length
    ∧ (((sift_down fuel h im i).1.map proj : List _)
        : Multiset (Nat × String × Storage × Option String))
      = ((h.map proj : List _) : Multiset _) := by
  induction fuel generalizing h im i with
  | zero =>
    refine ⟨hinv, ?_, rfl, rfl⟩
    show heapOrd h
    intro j hj0 hjl
    exact hexc j hj0 hjl (by omega)
  | succ fuel ih =>
    have hmain : ∀ s2, i < s2 → s2 < h.length → (s2 - 1) / 2 = i →
        (hget h s2).priority < (hget h i).priority →
        (∀ c, 0 < c → (c - 1) / 2 = i → c < h.length →
          (hget h s2).priority ≤ (hget h c).priority) →
        swapInv (sift_down fuel (cswap h im i s2).1 (cswap h im i s2).2 s2).1
          (sift_down fuel (cswap h im i s2).1 (cswap h im i s2).2 s2).2
        ∧ heapOrd (sift_down fuel (cswap h im i s2).1 (cswap h im i s2).2 s2).1
        ∧ (sift_down fuel (cswap h im i s2).1 (cswap h im i s2).2 s2).1.length
            = h.length
        ∧ (((sift_down fuel (cswap h im i s2).1 (cswap h im i s2).2 s2).1.map
              proj : List _)
            : Multiset (Nat × String × Storage × Option String))
          = ((h.map proj : List _) : Multiset _) := by
      intro s2 hs2i hs2len hchild hs2lt hs2min
      have hilen : i < h.length := lt_trans hs2i hs2len
      have hine : i ≠ s2 := by omega
      have hinv' := cswap_swapInv h im i s2 hilen hs2len hine hinv
      have hlen' := cswap_length h im i s2
      have hpri_i : (hget (cswap h im i s2).1 i).priority
          = (hget h s2).priority := by
        rw [cswap_hget_i h im i s2 hilen hine, priority_setPos]
      have hpri_s : (hget (cswap h im i s2).1 s2).priority
          = (hget h i).priority := by
        rw [cswap_hget_j h im i s2 hs2len, priority_setPos]
      have hpri_o : ∀ k, k ≠ i → k ≠ s2 →
          (hget (cswap h im i s2).1 k).priority = (hget h k).priority := by
        intro k h1 h2
        rw [cswap_hget_other h im i s2 k h1 h2]
      have hexc' : ∀ j, 0 < j → j < (cswap h im i s2).1.length →
          (j - 1) / 2 ≠ s2 →
          (hget (cswap h im i s2).1 ((j - 1) / 2)).priority
            ≤ (hget (cswap h im i s2).1 j).priority := by
        intro j hj0 hjl hjq
        rw [hlen'] at hjl
        by_cases hji : j = i
        · subst hji
          have hq : (j - 1) / 2 ≠ j := by omega
          have hq2 : (j - 1) / 2 ≠ s2 := by omega
          rw [hpri_i, hpri_o _ hq hq2]
          exact habove hj0 s2 (by omega) hs2len hchild
        · by_cases hjs : j = s2
          · subst hjs
            rw [hchild, hpri_i, hpri_s]
            omega
          · by_cases hqi : (j - 1) / 2 = i
            · rw [hqi, hpri_i, hpri_o j hji hjs]
              exact hs2min j hj0 hqi hjl
            · rw [hpri_o _ hqi hjq, hpri_o j hji hjs]
              exact hexc j hj0 hjl hqi
      have habove' : 0 < s2 →
          ∀ j, 0 < j → j < (cswap h im i s2).1.length → (j - 1) / 2 = s2 →
          (hget (cswap h im i s2).1 ((s2 - 1) / 2)).priority
            ≤ (hget (cswap h im i s2).1 j).priority := by
        intro _ j hj0 hjl hjq
        rw [hlen'] at hjl
        have hjgt : s2 < j := by omega
        rw [hchild, hpri_i, hpri_o j (by omega) (by omega)]
        have h1 := hexc j hj0 hjl (by omega)
        rw [hjq] at h1
        exact h1
      have hres := ih (cswap h im i s2).1 (cswap h im i s2).2 s2
        (by rw [hlen']; omega) hinv' hexc' habove'
      refine ⟨hres.1, hres.2.1, ?_, ?_⟩
      · rw [hres.2.2.1, hlen']
      · rw [hres.2.2.2, cswap_mul h im i s2 hilen hs2len hine]
    by_cases hc1 : 2 * i + 1 < h.length
        ∧ (hget h (2 * i + 1)).priority < (hget h i).priority
    · by_cases hc2 : 2 * i + 2 < h.length
          ∧ (hget h (2 * i + 2)).priority < (hget h (2 * i + 1)).priority
      · have hred : sift_down (fuel + 1) h im i
            = sift_down fuel (cswap h im i (2 * i + 2)).1
                (cswap h im i (2 * i + 2)).2 (2 * i + 2) := by
          simp only [sift_down, if_pos hc1, if_pos hc2,
            if_neg (by omega : ¬(2 * i + 2 = i))]
        rw [hred]
        obtain ⟨hc1a, hc1b⟩ := hc1
        obtain ⟨hc2a, hc2b⟩ := hc2
        have ha1 : i < 2 * i + 2 := by omega
        have ha2 : (2 * i + 2 - 1) / 2 = i := by omega
        have ha3 : (hget h (2 * i + 2)).priority < (hget h i).priority := by
          omega
        refine hmain (2 * i + 2) ha1 hc2a ha2 ha3 ?_
        intro c hc0 hcq hcl
        have hcc : c = 2 * i + 1 ∨ c = 2 * i + 2 := by omega
        cases hcc with
        | inl he => subst he; omega
        | inr he => subst he; omega
      · have hred : sift_down (fuel + 1) h im i
            = sift_down fuel (cswap h im i (2 * i + 1)).1
                (cswap h im i (2 * i + 1)).2 (2 * i + 1) := by
          simp only [sift_down, if_pos hc1, if_neg hc2,
            if_neg (by omega : ¬(2 * i + 1 = i))]
        rw [hred]
        obtain ⟨hc1a, hc1b⟩ := hc1
        have ha1 : i < 2 * i + 1 := by omega
        have ha2 : (2 * i + 1 - 1) / 2 = i := by omega
        refine hmain (2 * i + 1) ha1 hc1a ha2 hc1b ?_
        intro c hc0 hcq hcl
        have hcc : c = 2 * i + 1 ∨ c = 2 * i + 2 := by omega
        cases hcc with
        | inl he => subst he; omega
        | inr he =>
          subst he
          have hnlt : ¬(hget h (2 * i + 2)).priority
              < (hget h (2 * i + 1)).priority := fun hlt => hc2 ⟨hcl, hlt⟩
          omega
    · by_cases hc2 : 2 * i + 2 < h.length
          ∧ (hget h (2 * i + 2)).priority < (hget h i).priority
      · have hred : sift_down (fuel + 1) h im i
            = sift_down fuel (cswap h im i (2 * i + 2)).1
                (cswap h im i (2 * i + 2)).2 (2 * i + 2) := by
          simp only [sift_down, if_neg hc1, if_pos hc2,
            if_neg (by omega : ¬(2 * i + 2 = i))]
        rw [hred]
        obtain ⟨hc2a, hc2b⟩ := hc2
        have ha1 : i < 2 * i + 2 := by omega
        have ha2 : (2 * i + 2 - 1) / 2 = i := by omega
        refine hmain (2 * i + 2) ha1 hc2a ha2 hc2b ?_
        intro c hc0 hcq hcl
        have hcc : c = 2 * i + 1 ∨ c = 2 * i + 2 := by omega
        cases hcc with
        | inl he =>
          subst he
          have hnlt : ¬(hget h (2 * i + 1)).priority < (hget h i).priority :=
            fun hlt => hc1 ⟨hcl, hlt⟩
          omega
        | inr he => subst he; omega
      · have hred : sift_down (fuel + 1) h im i = (h, im) := by
          simp only [sift_down, if_neg hc1, if_neg hc2, if_true,
            eq_self_iff_true]
        rw [hred]
        refine ⟨hinv, ?_, rfl, rfl⟩
        show heapOrd h
        intro j hj0 hjl
        by_cases hqi : (j - 1) / 2 = i
        · have : j = 2 * i + 1 ∨ j = 2 * i + 2 := by omega
          cases this with
          | inl he =>
            subst he
            have : ¬(hget h (2 * i + 1)).priority < (hget h i).priority :=
              fun hlt => hc1 ⟨hjl, hlt⟩
            rw [hqi]
            omega
          | inr he =>
            subst he
            have : ¬(hget h (2 * i + 2)).priority < (hget h i).priority :=
              fun hlt => hc2 ⟨hjl, hlt⟩
            rw [hqi]
            omega
        · exact hexc j hj0 hjl hqi

/-! ## The three heap operations preserve the invariant -/

theorem set_hget_self (l : List Item) (i : Nat) : l.set i (hget l i) = l := by
  induction l generalizing i with
  | nil => rfl
  | cons hd t ih =>
    cases i with
    | zero => rfl
    | succ n =>
      show hd :: t.set n (hget t n) = hd :: t
      rw [ih]

theorem swapInv_set (h : List Item) (im : List (String × Nat)) (i : Nat)
    (a : Item) (hi : i < h.length) (hsid : a.sid = (hget h i).sid)
    (hpos : a.pos = i) (hinv : swapInv h im) :
    swapInv (h.set i a) im := by
  obtain ⟨hpos0, ⟨himf, himb⟩, hnd⟩ := hinv
  refine ⟨?_, ⟨?_, ?_⟩, hnd⟩
  · intro k hk
    rw [List.length_set] at hk
    by_cases hki : k = i
    · subst hki
      rw [hget_set_eq _ _ _ hk, hpos]
    · rw [hget_set_ne _ _ _ _ (fun he => hki he.symm)]
      exact hpos0 k hk
  · intro k hk
    rw [List.length_set] at hk
    by_cases hki : k = i
    · subst hki
      rw [hget_set_eq _ _ _ hk, hsid]
      exact himf k hk
    · rw [hget_set_ne _ _ _ _ (fun he => hki he.symm)]
      exact himf k hk
  · intro s j hj
    obtain ⟨hjl, hjs⟩ := himb s j hj
    refine ⟨by rw [List.length_set]; exact hjl, ?_⟩
    by_cases hji : j = i
    · subst hji
      rw [hget_set_eq _ _ _ hjl, hsid]
      exact hjs
    · rw [hget_set_ne _ _ _ _ (fun he => hji he.symm)]
      exact hjs

theorem pushRaw_inv (c : Container) (p : Nat) (sid : String) (d : Storage)
    (ip : Option String) (hinv : Inv c)
    (hfresh : dget c.index_map sid = none) :
    Inv (pushRaw c p sid d ip)
    ∧ (pushRaw c p sid d ip).heap.length = c.heap.length + 1
    ∧ (((pushRaw c p sid d ip).heap.map proj : List _)
        : Multiset (Nat × String × Storage × Option String))
      = ((c.heap.map proj : List _) : Multiset _) + {(p, sid, d, ip)} := by
  obtain ⟨⟨hpos0, ⟨himf, himb⟩, hnd⟩, hord⟩ := hinv
  set n := c.heap.length with hn
  set item : Item := ⟨p, sid, d, n, ip⟩ with hitem
  set h := c.heap ++ [item] with hh
  set im := dset c.index_map sid n with him
  have hlen : h.length = n + 1 := by simp [hh]
  have hgn : hget h n = item := hget_append_len c.heap item
  have hglt : ∀ k, k < n → hget h k = hget c.heap k := fun k hk =>
    hget_append_lt c.heap [item] k hk
  have hsinv : swapInv h im := by
    refine ⟨?_, ⟨?_, ?_⟩, keysNodup_dset c.index_map sid n hnd⟩
    · intro k hk
      rw [hlen] at hk
      by_cases hkn : k = n
      · rw [hkn, hgn]
      · have hk' : k < n := by omega
        rw [hglt k hk']
        exact hpos0 k hk'
    · intro k hk
      rw [hlen] at hk
      by_cases hkn : k = n
      · rw [hkn, hgn]
        exact dget_dset_eq c.index_map sid n
      · have hk' : k < n := by omega
        rw [hglt k hk']
        have hne : (hget c.heap k).sid ≠ sid := by
          intro he
          have h1 := himf k hk'
          rw [he, hfresh] at h1
          cases h1
        rw [dget_dset_ne _ _ _ _ (fun he => hne he.symm)]
        exact himf k hk'
    · intro s j hj
      by_cases hs : s = sid
      · subst hs
        rw [dget_dset_eq] at hj
        obtain rfl := Option.some.inj hj
        refine ⟨by omega, ?_⟩
        rw [hgn]
      · rw [dget_dset_ne _ _ _ _ (fun he => hs he.symm)] at hj
        obtain ⟨hjl, hjs⟩ := himb s j hj
        refine ⟨by omega, ?_⟩
        rw [hglt j hjl]
        exact hjs
  have hexc : ∀ j, 0 < j → j < h.length → j ≠ n →
      (hget h ((j - 1) / 2)).priority ≤ (hget h j).priority := by
    intro j hj0 hjl hjn
    rw [hlen] at hjl
    have hj' : j < n := by omega
    rw [hglt j hj', hglt _ (by omega)]
    exact hord j hj0 hj'
  have hgrand : 0 < n → ∀ j, 0 < j → j < h.length → (j - 1) / 2 = n →
      (hget h ((n - 1) / 2)).priority ≤ (hget h j).priority := by
    intro hn0 j hj0 hjl hjq
    rw [hlen] at hjl
    exfalso
    omega
  have hres := sift_up_spec n h im n (le_refl n) (by omega) hsinv hexc hgrand
  have hpush : pushRaw c p sid d ip
      = { c with heap := (sift_up n h im n).1,
                 index_map := (sift_up n h im n).2 } := rfl
  rw [hpush]
  refine ⟨⟨hres.1, hres.2.1⟩, ?_, ?_⟩
  · show (sift_up n h im n).1.length = n + 1
    rw [hres.2.2.1, hlen]
  · show (((sift_up n h im n).1.map proj : List _)
        : Multiset (Nat × String × Storage × Option String))
      = ((c.heap.map proj : List _) : Multiset _) + {(p, sid, d, ip)}
    rw [hres.2.2.2, hh]
    show (((c.heap ++ [item]).map proj : List _) : Multiset _)
      = ((c.heap.map proj : List _) : Multiset _) + {(p, sid, d, ip)}
    rw [List.map_append, ← Multiset.coe_add]
    rfl

theorem popRaw_inv (c : Container) (hinv : Inv c) :
    Inv (popRaw c).2
    ∧ ((popRaw c).1 = none → (popRaw c).2 = c)
    ∧ (∀ root, (popRaw c).1 = some root →
        root = hget c.heap 0
        ∧ (popRaw c).2.heap.length + 1 = c.heap.length
        ∧ (((popRaw c).2.heap.map proj : List _)
            : Multiset (Nat × String × Storage × Option String)) + {proj root}
          = ((c.heap.map proj : List _) : Multiset _)) := by
  obtain ⟨⟨hpos0, ⟨himf, himb⟩, hnd⟩, hord⟩ := hinv
  cases hh : c.heap.head? with
  | none =>
    have hpop : popRaw c = (none, c) := by
      unfold popRaw
      rw [hh]
    rw [hpop]
    exact ⟨⟨⟨hpos0, ⟨himf, himb⟩, hnd⟩, hord⟩, fun _ => rfl,
      fun root hr => by cases hr⟩
  | some root =>
    have hr0 : root = hget c.heap 0 := (hget_head c.heap root hh).symm
    have hne : c.heap ≠ [] := by
      intro he
      rw [he] at hh
      cases hh
    have hpos1 : 1 ≤ c.heap.length := List.length_pos.mpr hne
    by_cases h1 : c.heap.length = 1
    · have hpop : popRaw c = (some root,
          { c with heap := [], index_map := ddel c.index_map root.sid }) := by
        simp [popRaw, hh, h1]
      rw [hpop]
      refine ⟨⟨⟨?_, ⟨?_, ?_⟩, keysNodup_ddel _ _ hnd⟩, ?_⟩, ?_, ?_⟩
      · intro k hk
        simp at hk
      · intro k hk
        simp at hk
      · intro s j hj
        exfalso
        by_cases hs : s = root.sid
        · rw [hs, dget_ddel_eq _ _ hnd] at hj
          cases hj
        · rw [dget_ddel_ne _ _ _ (fun he => hs he.symm)] at hj
          obtain ⟨hjl, hjs⟩ := himb s j hj
          have hj0 : j = 0 := by omega
          rw [hj0, ← hr0] at hjs
          exact hs hjs.symm
      · intro j hj0 hjl
        simp at hjl
      · intro hno
        exact Option.noConfusion hno
      · intro r hr
        obtain rfl := Option.some.inj hr
        refine ⟨hr0, by simpa using h1.symm, ?_⟩
        obtain ⟨a, ha⟩ := List.length_eq_one.mp h1
        have hra : a = root := by
          rw [ha] at hh
          exact Option.some.inj hh
        rw [ha, hra]
        simp
  -- the general case (length at least two) follows
    · have hn2 : 2 ≤ c.heap.length := by omega
      obtain ⟨last, hlast⟩ : ∃ last, c.heap.getLast? = some last := by
        cases hl : c.heap.getLast? with
        | none =>
          exact absurd (List.getLast?_eq_none_iff.mp hl) hne
        | some x => exact ⟨x, rfl⟩
      have hrlast : last = hget c.heap (c.heap.length - 1) :=
        (hget_getLast c.heap last hlast).symm
      set h0 : List Item := c.heap.dropLast.set 0 { last with pos := 0 }
        with hh0
      set im0 : List (String × Nat) :=
        dset (ddel c.index_map root.sid) last.sid 0 with him0
      have hdl : c.heap.dropLast.length = c.heap.length - 1 := by
        simp
      have hlen0 : h0.length = c.heap.length - 1 := by
        rw [hh0, List.length_set, hdl]
      have hg0 : hget h0 0 = { last with pos := 0 } := by
        rw [hh0]
        exact hget_set_eq _ _ _ (by omega)
      have hgk : ∀ k, 0 < k → k < c.heap.length - 1 →
          hget h0 k = hget c.heap k := by
        intro k hk0 hkl
        rw [hh0, hget_set_ne _ _ _ _ (by omega)]
        exact hget_dropLast c.heap k (by omega)
      have hndsid : ∀ k l', k < c.heap.length → l' < c.heap.length →
          (hget c.heap k).sid = (hget c.heap l').sid → k = l' := by
        intro k l' hk hl' he
        have h1' := himf k hk
        have h2' := himf l' hl'
        rw [he, h2'] at h1'
        exact (Option.some.inj h1').symm
      have hrs : root.sid = (hget c.heap 0).sid := by rw [hr0]
      have hls : last.sid = (hget c.heap (c.heap.length - 1)).sid := by
        rw [hrlast]
      have hrl : root.sid ≠ last.sid := by
        intro he
        have := hndsid 0 (c.heap.length - 1) (by omega) (by omega)
          (by rw [← hrs, ← hls, he])
        omega
      have hsinv : swapInv h0 im0 := by
        refine ⟨?_, ⟨?_, ?_⟩,
          keysNodup_dset _ _ _ (keysNodup_ddel _ _ hnd)⟩
        · intro k hk
          rw [hlen0] at hk
          by_cases hk0 : k = 0
          · rw [hk0, hg0]
          · rw [hgk k (by omega) hk]
            exact hpos0 k (by omega)
        · intro k hk
          rw [hlen0] at hk
          by_cases hk0 : k = 0
          · rw [hk0, hg0, sid_setPos, him0, dget_dset_eq]
          · rw [hgk k (by omega) hk]
            have hskl : (hget c.heap k).sid ≠ last.sid := by
              intro he
              have := hndsid k (c.heap.length - 1) (by omega) (by omega)
                (by rw [he, hls])
              omega
            have hskr : (hget c.heap k).sid ≠ root.sid := by
              intro he
              have := hndsid k 0 (by omega) (by omega) (by rw [he, hrs])
              omega
            rw [him0, dget_dset_ne _ _ _ _ (fun he => hskl he.symm),
              dget_ddel_ne _ _ _ (fun he => hskr he.symm)]
            exact himf k (by omega)
        · intro s j hj
          rw [him0] at hj
          by_cases hsl : s = last.sid
          · rw [hsl, dget_dset_eq] at hj
            obtain rfl := Option.some.inj hj
            refine ⟨by omega, ?_⟩
            rw [hg0, sid_setPos, hsl]
          · rw [dget_dset_ne _ _ _ _ (fun he => hsl he.symm)] at hj
            by_cases hsr : s = root.sid
            · rw [hsr, dget_ddel_eq _ _ hnd] at hj
              cases hj
            · rw [dget_ddel_ne _ _ _ (fun he => hsr he.symm)] at hj
              obtain ⟨hjl, hjs⟩ := himb s j hj
              have hj0 : j ≠ 0 := by
                intro he
                rw [he, ← hrs] at hjs
                exact hsr hjs.symm
              have hjlast : j ≠ c.heap.length - 1 := by
                intro he
                rw [he, ← hls] at hjs
                exact hsl hjs.symm
              refine ⟨by omega, ?_⟩
              rw [hgk j (by omega) (by omega)]
              exact hjs
      have hexc : ∀ j, 0 < j → j < h0.length → (j - 1) / 2 ≠ 0 →
          (hget h0 ((j - 1) / 2)).priority ≤ (hget h0 j).priority := by
        intro j hj0 hjl hjq
        rw [hlen0] at hjl
        rw [hgk j hj0 hjl, hgk _ (by omega) (by omega)]
        exact hord j hj0 (by omega)
      have habove : 0 < 0 → ∀ j, 0 < j → j < h0.length → (j - 1) / 2 = 0 →
          (hget h0 ((0 - 1) / 2)).priority ≤ (hget h0 j).priority :=
        fun hcon => absurd hcon (lt_irrefl 0)
      have hres := sift_down_spec h0.length h0 im0 0 (by omega) hsinv hexc
        habove
      have hpop : popRaw c = (some root,
          { c with heap := (sift_down h0.length h0 im0 0).1,
                   index_map := (sift_down h0.length h0 im0 0).2 }) := by
        rw [hh0, him0]
        simp [popRaw, hh, h1, hlast]
      rw [hpop]
      refine ⟨⟨hres.1, hres.2.1⟩, ?_, ?_⟩
      · intro hno
        exact Option.noConfusion hno
      intro r hr
      obtain rfl := Option.some.inj hr
      refine ⟨hr0, ?_, ?_⟩
      · show (sift_down h0.length h0 im0 0).1.length + 1 = c.heap.length
        rw [hres.2.2.1, hlen0]
        omega
      · show (((sift_down h0.length h0 im0 0).1.map proj : List _)
            : Multiset (Nat × String × Storage × Option String)) + {proj root}
          = ((c.heap.map proj : List _) : Multiset _)
        rw [hres.2.2.2]
        have hmm := multiset_map_set c.heap.dropLast 0 { last with pos := 0 }
          (by omega)
        rw [proj_setPos] at hmm
        have hdl0 : hget c.heap.dropLast 0 = hget c.heap 0 :=
          hget_dropLast c.heap 0 (by omega)
        rw [hdl0, ← hr0] at hmm
        have hsplit : c.heap.dropLast ++ [last] = c.heap := by
          have h2 := List.getLast?_eq_getLast c.heap hne
          rw [hlast] at h2
          obtain rfl := Option.some.inj h2
          exact List.dropLast_append_getLast hne
        rw [← hh0] at hmm
        rw [hmm]
        show ((c.heap.dropLast.map proj : List _) : Multiset _) + {proj last}
          = ((c.heap.map proj : List _) : Multiset _)
        conv_rhs => rw [← hsplit]
        rw [List.map_append, ← Multiset.coe_add]
        rfl

theorem updateOrSame_inv (c : Container) (sid : String) (p : Nat)
    (hinv : Inv c) : Inv (updateOrSame c sid p) := by
  obtain ⟨⟨hpos0, ⟨himf, himb⟩, hnd⟩, hord⟩ := hinv
  cases hidx : dget c.index_map sid with
  | none =>
    have hsame : updateOrSame c sid p = c := by
      simp only [updateOrSame, updateRaw, hidx]
    rw [hsame]
    exact ⟨⟨hpos0, ⟨himf, himb⟩, hnd⟩, hord⟩
  | some index =>
    obtain ⟨hil, his⟩ := himb sid index hidx
    set h' : List Item :=
      c.heap.set index { hget c.heap index with priority := p } with hh'
    have hsetinv : swapInv h' c.index_map :=
      swapInv_set c.heap c.index_map index _ hil rfl (hpos0 index hil)
        ⟨hpos0, ⟨himf, himb⟩, hnd⟩
    have hgi : hget h' index = { hget c.heap index with priority := p } := by
      rw [hh']
      exact hget_set_eq _ _ _ hil
    have hgo : ∀ k, k ≠ index → hget h' k = hget c.heap k := by
      intro k hk
      rw [hh']
      exact hget_set_ne _ _ _ _ (fun he => hk he.symm)
    have hlen' : h'.length = c.heap.length := by
      rw [hh', List.length_set]
    by_cases hlt : p < (hget c.heap index).priority
    · have hupd : updateOrSame c sid p
          = { c with heap := (sift_up index h' c.index_map index).1,
                     index_map := (sift_up index h' c.index_map index).2 } := by
        rw [hh']
        simp only [updateOrSame, updateRaw, hidx, if_pos hlt]
      rw [hupd]
      have hexc : ∀ j, 0 < j → j < h'.length → j ≠ index →
          (hget h' ((j - 1) / 2)).priority ≤ (hget h' j).priority := by
        intro j hj0 hjl hjn
        rw [hlen'] at hjl
        by_cases hpj : (j - 1) / 2 = index
        · rw [hgo j hjn, hpj, hgi]
          have hpar := hord j hj0 hjl
          rw [hpj] at hpar
          show p ≤ (hget c.heap j).priority
          omega
        · rw [hgo j hjn, hgo _ hpj]
          exact hord j hj0 hjl
      have hgrand : 0 < index → ∀ j, 0 < j → j < h'.length →
          (j - 1) / 2 = index →
          (hget h' ((index - 1) / 2)).priority ≤ (hget h' j).priority := by
        intro hi0 j hj0 hjl hjq
        rw [hlen'] at hjl
        rw [hgo _ (by omega : (index - 1) / 2 ≠ index), hgo j (by omega)]
        have h1 := hord index hi0 hil
        have h2 := hord j hj0 hjl
        rw [hjq] at h2
        omega
      have hres := sift_up_spec index h' c.index_map index (le_refl index)
        (by omega) hsetinv hexc hgrand
      exact ⟨hres.1, hres.2.1⟩
    · by_cases hgt : (hget c.heap index).priority < p
      · have hupd : updateOrSame c sid p
            = { c with
                heap := (sift_down h'.length h' c.index_map index).1,
                index_map := (sift_down h'.length h' c.index_map index).2 } := by
          rw [hh']
          simp only [updateOrSame, updateRaw, hidx, if_neg hlt, if_pos hgt]
        rw [hupd]
        have hexc : ∀ j, 0 < j → j < h'.length → (j - 1) / 2 ≠ index →
            (hget h' ((j - 1) / 2)).priority ≤ (hget h' j).priority := by
          intro j hj0 hjl hjq
          rw [hlen'] at hjl
          by_cases hji : j = index
          · subst hji
            rw [hgo _ hjq, hgi]
            show (hget c.heap ((j - 1) / 2)).priority ≤ p
            have hpar := hord j hj0 hjl
            omega
          · rw [hgo j hji, hgo _ hjq]
            exact hord j hj0 hjl
        have habove : 0 < index → ∀ j, 0 < j → j < h'.length →
            (j - 1) / 2 = index →
            (hget h' ((index - 1) / 2)).priority ≤ (hget h' j).priority := by
          intro hi0 j hj0 hjl hjq
          rw [hlen'] at hjl
          rw [hgo _ (by omega : (index - 1) / 2 ≠ index), hgo j (by omega)]
          have h1 := hord index hi0 hil
          have h2 := hord j hj0 hjl
          rw [hjq] at h2
          omega
        have hres := sift_down_spec h'.length h' c.index_map index
          (by omega) hsetinv hexc habove
        exact ⟨hres.1, hres.2.1⟩
      · have heqp : p = (hget c.heap index).priority := by omega
        have hupd : updateOrSame c sid p = { c with heap := h' } := by
          rw [hh']
          simp only [updateOrSame, updateRaw, hidx, if_neg hlt, if_neg hgt]
        rw [hupd]
        have hid : h' = c.heap := by
          rw [hh', heqp]
          exact set_hget_self c.heap index
        rw [hid]
        exact ⟨⟨hpos0, ⟨himf, himb⟩, hnd⟩, hord⟩

/-- C1 (amended): for every container state reachable from a fresh container
by `_push` with a session id not currently in the index, `_pop`, and
`_update_priority`, the heap array satisfies the min-heap ordering, and for
every stored item `index_map` maps its session id to the item's actual array
position, which also equals the position field stored inside the item.  (As
literally stated — with unrestricted `_push` ids — the claim fails; see
`claim_C1_counterexample`.) -/
theorem claim_C1_theorem (c : Container) (hreach : ReachFresh c) :
    ClaimInv c := by
  have hInv : Inv c := by
    induction hreach with
    | init n =>
      refine ⟨⟨?_, ⟨?_, ?_⟩, ?_⟩, ?_⟩
      · intro k hk
        simp [Container.init] at hk
      · intro k hk
        simp [Container.init] at hk
      · intro s j hj
        exact Option.noConfusion hj
      · simp [Container.init, keysNodup]
      · intro j hj0 hjl
        simp [Container.init] at hjl
    | push p sid d ip hfresh hr ih =>
      exact (pushRaw_inv _ p sid d ip ih hfresh).1
    | pop hr ih =>
      exact (popRaw_inv _ ih).1
    | update sid p hr ih =>
      exact updateOrSame_inv _ sid p ih
  obtain ⟨⟨hpos0, ⟨himf, _⟩, _⟩, hord⟩ := hInv
  exact ⟨hord, fun i hi => ⟨himf i hi, hpos0 i hi⟩⟩

/-- Witness for C1: the invariant holds after a concrete fresh-id
derivation of two pushes. -/
theorem claim_C1_witness :
    ClaimInv (pushRaw (pushRaw (Container.init 5) 1 "a" regStorage none)
      2 "b" regStorage none) :=
  claim_C1_theorem _
    (ReachFresh.push 2 "b" regStorage none (by decide)
      (ReachFresh.push 1 "a" regStorage none (by decide)
        (ReachFresh.init 5)))

/-- C5: with the per-address cap set to 2, creating sessions `s1`, `s2`,
`s3` from address `1.2.3.4` in that order forces the eviction of `s1`
during the creation of `s3`: afterwards `s1` is absent from the index map
and from the heap, and the address's session list is exactly
`["s2", "s3"]`. -/
theorem claim_C5_theorem :
    dget traceC5.index_map "s1" = none
    ∧ traceC5.heap.all (fun it => it.sid ≠ "s1")
    ∧ dget traceC5.ip_to_sessions "1.2.3.4" = some ["s2", "s3"]
    ∧ (dget traceC5.index_map "s2").isSome
    ∧ (dget traceC5.index_map "s3").isSome := by
  decide

/-! ## C2: the per-address cap can be exceeded after a completed operation -/

/-- C2 fails on the code: on the recorded trace (cap 1), the fourth
`get_storage` call raises (`_update_priority` on a session id that is no
longer in the heap, reached because reattribution removed the session from
the bucket keyed by its *raw* saved address instead of the normalized one),
leaving the `9.9.9.9` bucket with 2 > 1 sessions; the fifth call completes
normally and the oversized bucket persists. -/
theorem claim_C2_failing_trace :
    traceC2d.2.isOk = false
    ∧ dget traceC2d.1.ip_to_sessions "9.9.9.9" = some ["s1", "s3"]
    ∧ dget traceC2d.1.index_map "s1" = none
    ∧ traceC2e.2.isOk = true
    ∧ dget traceC2e.1.ip_to_sessions "9.9.9.9" = some ["s1", "s3"]
    ∧ cfgIp1.maxPerIp <
        ((dget traceC2e.1.ip_to_sessions "9.9.9.9").getD []).length := by
  decide

/-! ## C3: token binding eviction condition -/

/-- C3 as stated is false: on a table at cap 2 holding `t1 ↦ s1, t2 ↦ s2`,
`bind(t2, s3)` must, per the claim, first remove `t2` (leaving 1 < 2
bindings) and therefore evict nothing; the code checks the cap before the
removal and evicts `t1`. -/
theorem claim_C3_counterexample :
    (Container.bind_jwt_to_session_id bindCexState "t2" "s3").1
      ≠ bindSpecClaim bindCexState "t2" "s3"
    ∧ dget (Container.bind_jwt_to_session_id bindCexState "t2" "s3").1.jwt_to_session
        "t1" = none
    ∧ dget (bindSpecClaim bindCexState "t2" "s3").jwt_to_session "t1" = some "s1" := by
  decide

/-- C3 amended: `bind` removes every binding matching the token or the
session id, additionally evicts the single oldest-bound token if and only
if the binding count was at or over the cap *before* the removal, and
appends the new binding — for every well-formed table state (unique keys,
order list backed by the table, positive cap). -/
theorem claim_C3_theorem (c : Container) (jwtTok sid : String)
    (hnd : keysNodup c.jwt_to_session)
    (horder : ∀ t ∈ c.jwt_to_session_order,
      (dget c.jwt_to_session t).isSome = true)
    (hcap : 1 ≤ c.maxSessions) :
    Container.bind_jwt_to_session_id c jwtTok sid
      = (bindSpecAmend c jwtTok sid, Except.ok ()) := by
  have hne : ¬(c.maxSessions ≤ c.jwt_to_session_order.length
      ∧ c.jwt_to_session_order = []) := by
    rintro ⟨h1, h2⟩
    rw [h2] at h1
    simp only [List.length_nil] at h1
    omega
  have hkeyErr : (match bindEvictTok c with
      | some t0 => (¬ bindBase c jwtTok sid t0
          ∧ dget c.jwt_to_session t0 = none : Bool)
      | none => false) = false := by
    cases hh : bindEvictTok c with
    | none => rfl
    | some t0 =>
      have ht0 : t0 ∈ c.jwt_to_session_order := by
        unfold bindEvictTok at hh
        by_cases hat : c.maxSessions ≤ c.jwt_to_session_order.length
        · rw [if_pos hat] at hh
          exact List.mem_of_mem_head? hh
        · rw [if_neg hat] at hh
          cases hh
      have hsome := horder t0 ht0
      cases hdg : dget c.jwt_to_session t0 with
      | none => rw [hdg] at hsome; cases hsome
      | some s => simp [hdg]
  have hfo : ∀ t ∈ c.jwt_to_session_order,
      (¬ bindToRem c jwtTok sid t : Bool)
      = (¬ ((t = jwtTok ∨ dget c.jwt_to_session t = some sid)
          ∨ bindEvictTok c = some t) : Bool) := by
    intro t ht
    have hsome := horder t ht
    cases hdg : dget c.jwt_to_session t with
    | none => rw [hdg] at hsome; cases hsome
    | some s => simp [bindToRem, bindBase, hdg]
  have hfm : ∀ p ∈ c.jwt_to_session,
      (¬ bindToRem c jwtTok sid p.1 : Bool)
      = (¬ ((p.1 = jwtTok ∨ dget c.jwt_to_session p.1 = some sid)
          ∨ bindEvictTok c = some p.1) : Bool) := by
    intro p hp
    have hdg := dget_of_mem c.jwt_to_session p hnd hp
    simp [bindToRem, bindBase, hdg]
  unfold Container.bind_jwt_to_session_id bindSpecAmend
  rw [if_neg hne]
  simp only [hkeyErr, Bool.false_eq_true, if_false]
  rw [List.filter_congr hfo, List.filter_congr hfm]
  simp only [bindEvictTok]

/-- Witness for C3 amended at a concrete state: rebinding token `t2` on a
full table evicts the pre-removal oldest binding `t1`. -/
theorem claim_C3_witness :
    Container.bind_jwt_to_session_id bindCexState "t2" "s3"
      = (bindSpecAmend bindCexState "t2" "s3", Except.ok ())
    ∧ dget (bindSpecAmend bindCexState "t2" "s3").jwt_to_session "t1" = none :=
  ⟨claim_C3_theorem bindCexState "t2" "s3" (by decide)
    (by decide) (by decide), by decide⟩

/-! ## C9: a relation store of capacity 0 never stores a link -/

/-- C9: with capacity 0 every `add` that returns normally returns the store
unchanged, and from the empty store any sequence of `add` calls leaves the
links list empty. -/
theorem claim_C9_theorem (maxIdLen : Nat) :
    (∀ (l : InMemoryLinks) (s t : String) (r : InMemoryLinks),
      l.max_count = 0 → InMemoryLinks.add maxIdLen l s t = Except.ok r → r = l)
    ∧ ∀ ops : List (String × String),
        (runLinkAdds maxIdLen ⟨0, []⟩ ops).links = [] := by
  constructor
  · intro l s t r h0 hadd
    unfold InMemoryLinks.add at hadd
    cases hns : normalize_id maxIdLen s with
    | error e => rw [hns] at hadd; exact absurd hadd (by simp)
    | ok s' =>
      cases hnt : normalize_id maxIdLen t with
      | error e => rw [hns, hnt] at hadd; exact absurd hadd (by simp)
      | ok t' =>
        rw [hns, hnt] at hadd
        simp only [h0, if_pos rfl] at hadd
        exact (Except.ok.injEq _ _ ▸ hadd.symm)
  · intro ops
    have key : ∀ ops : List (String × String),
        runLinkAdds maxIdLen ⟨0, []⟩ ops = ⟨0, []⟩ := by
      intro ops
      induction ops with
      | nil => rfl
      | cons hd rest ih =>
        obtain ⟨s, t⟩ := hd
        rw [runLinkAdds]
        cases hadd : InMemoryLinks.add maxIdLen ⟨0, []⟩ s t with
        | error e => exact ih
        | ok l1 =>
          have : l1 = ⟨0, []⟩ := by
            unfold InMemoryLinks.add at hadd
            cases hns : normalize_id maxIdLen s with
            | error e => rw [hns] at hadd; exact absurd hadd (by simp)
            | ok s' =>
              cases hnt : normalize_id maxIdLen t with
              | error e => rw [hns, hnt] at hadd; exact absurd hadd (by simp)
              | ok t' =>
                rw [hns, hnt] at hadd
                simp only [if_pos rfl] at hadd
                exact (Except.ok.injEq _ _ ▸ hadd.symm)
          rw [this]
          exact ih
    rw [key ops]

/-- Witness for C9 at concrete inputs. -/
theorem claim_C9_witness :
    (⟨0, []⟩ : InMemoryLinks).max_count = 0
    ∧ (∀ r, InMemoryLinks.add 64 ⟨0, []⟩ "x" "y" = Except.ok r → r = ⟨0, []⟩)
    ∧ (runLinkAdds 64 ⟨0, []⟩ [("a", "b"), ("a", "b"), ("c", "d")]).links = [] :=
  ⟨rfl, fun r h => (claim_C9_theorem 64).1 ⟨0, []⟩ "x" "y" r rfl h,
   (claim_C9_theorem 64).2 [("a", "b"), ("a", "b"), ("c", "d")]⟩

/-! ## Decimal renderings are injective -/

theorem toDigitsCore_append10 (fuel n : Nat) (ds : List Char) :
    Nat.toDigitsCore 10 fuel n ds = Nat.toDigitsCore 10 fuel n [] ++ ds := by
  induction fuel generalizing n ds with
  | zero => simp [Nat.toDigitsCore]
  | succ fuel ih =>
    simp only [Nat.toDigitsCore]
    by_cases h : n / 10 = 0
    · simp [h]
    · simp only [h, if_false]
      rw [ih (n / 10) [Nat.digitChar (n % 10)],
        ih (n / 10) (Nat.digitChar (n % 10) :: ds)]
      simp

theorem digitChar_sub48 (n : Nat) (h : n < 10) :
    (Nat.digitChar n).toNat - 48 = n := by
  interval_cases n <;> rfl

theorem parse_toDigitsCore (fuel n : Nat) (hf : n < fuel) :
    parseDigits (Nat.toDigitsCore 10 fuel n []) = n := by
  induction fuel using Nat.strong_induction_on generalizing n with
  | _ fuel ih =>
    match fuel, hf with
    | fuel + 1, hf =>
      simp only [Nat.toDigitsCore]
      by_cases h : n / 10 = 0
      · simp only [h, if_pos rfl]
        have hn : n < 10 := by omega
        simp [parseDigits, digStep, Nat.mod_eq_of_lt hn, digitChar_sub48 n hn]
      · simp only [h, if_false]
        rw [toDigitsCore_append10]
        have hdiv : n / 10 < fuel := by omega
        unfold parseDigits
        rw [List.foldl_append]
        have hrec := ih fuel (by omega) (n / 10) hdiv
        unfold parseDigits at hrec
        rw [hrec]
        simp only [List.foldl]
        rw [digStep, digitChar_sub48 (n % 10) (by omega)]
        omega

theorem parse_repr (n : Nat) : parseDigits (Nat.repr n).data = n := by
  have hdata : (Nat.repr n).data = Nat.toDigits 10 n := rfl
  rw [hdata]
  exact parse_toDigitsCore (n + 1) n (by omega)

theorem repr_inj {n m : Nat} (h : Nat.repr n = Nat.repr m) : n = m := by
  have hc := congrArg (fun s => parseDigits s.data) h
  simpa [parse_repr] using hc

/-! ## C6: the bounded object store under sequences of adds -/

theorem dset_append {V : Type} (m : List (String × V)) (k : String) (v : V)
    (h : ∀ p ∈ m, p.1 ≠ k) : dset m k v = m ++ [(k, v)] := by
  induction m with
  | nil => rfl
  | cons hd t ih =>
    obtain ⟨k0, v0⟩ := hd
    have h0 : k0 ≠ k := h (k0, v0) (List.mem_cons_self _ _)
    simp only [dset, if_neg h0, List.cons_append, List.cons.injEq, true_and]
    exact ih fun p hp => h p (List.mem_cons_of_mem _ hp)

theorem runAdds_append (maxIdLen : Nat) (m : InMemoryModel)
    (l1 l2 : List DictObj) :
    runAdds maxIdLen m (l1 ++ l2)
      = ((runAdds maxIdLen (runAdds maxIdLen m l1).1 l2).1,
         (runAdds maxIdLen m l1).2
           ++ (runAdds maxIdLen (runAdds maxIdLen m l1).1 l2).2) := by
  induction l1 generalizing m with
  | nil => simp [runAdds]
  | cons hd t ih =>
    simp only [List.cons_append, runAdds]
    cases hadd : InMemoryModel.add maxIdLen m hd with
    | error e => exact ih m
    | ok p =>
      obtain ⟨m1, r⟩ := p
      simp only [List.append_eq, ih m1, List.cons_append]

theorem modelAfter_nil (N : Nat) : modelAfter N [] = freshModel N := by
  unfold modelAfter freshModel
  simp

theorem imExt (m1 m2 : InMemoryModel) (h1 : m1.max_count = m2.max_count)
    (h2 : m1.objects = m2.objects)
    (h3 : m1.last_accessed_ids = m2.last_accessed_ids)
    (h4 : m1.current_id_counter = m2.current_id_counter) : m1 = m2 := by
  cases m1
  cases m2
  simp only at h1 h2 h3 h4
  simp [h1, h2, h3, h4]

theorem modelAfter_max (N : Nat) (is : List DictObj) :
    (modelAfter N is).max_count = N := rfl

theorem modelAfter_counter (N : Nat) (is : List DictObj) :
    (modelAfter N is).current_id_counter = is.length + 1 := rfl

theorem modelAfter_objects (N : Nat) (is : List DictObj) :
    (modelAfter N is).objects
      = (List.range' (is.length + 1 - min is.length N) (min is.length N)).map
          (fun i => (Nat.repr i, dset (is.getD (i - 1) []) "id" (Nat.repr i))) := rfl

theorem modelAfter_last (N : Nat) (is : List DictObj) :
    (modelAfter N is).last_accessed_ids
      = (List.range' (is.length + 1 - min is.length N) (min is.length N)).map
          Nat.repr := rfl

/-- The object window of `modelAfter` for `k + 1` adds splits into the
window for `k` adds on the extended input list plus the new entry (capacity
not yet reached). -/
theorem add_modelAfter (maxIdLen N : Nat) (hN : 1 ≤ N) (is : List DictObj)
    (o : DictObj) (hlen : (Nat.repr (is.length + 1)).length ≤ maxIdLen) :
    InMemoryModel.add maxIdLen (modelAfter N is) o
      = Except.ok (modelAfter N (is ++ [o]),
          dset o "id" (Nat.repr (is.length + 1))) := by
  have hw : min is.length N ≤ is.length := Nat.min_le_left _ _
  have hfresh : ∀ p ∈ (modelAfter N is).objects,
      p.1 ≠ Nat.repr (is.length + 1) := by
    intro p hp
    rw [modelAfter_objects] at hp
    rw [List.mem_map] at hp
    obtain ⟨i, hi, hpe⟩ := hp
    rw [List.mem_range'_1] at hi
    intro he
    rw [← hpe] at he
    have := repr_inj he
    omega
  have hobj : dset (modelAfter N is).objects (Nat.repr (is.length + 1))
      (dset o "id" (Nat.repr (is.length + 1)))
      = (modelAfter N is).objects
        ++ [(Nat.repr (is.length + 1), dset o "id" (Nat.repr (is.length + 1)))] :=
    dset_append _ _ _ hfresh
  have hlenobj : (modelAfter N is).objects.length = min is.length N := by
    rw [modelAfter_objects, List.length_map, List.length_range']
  have hgetlast : (is ++ [o]).getD (is.length + 1 - 1) [] = o := by
    rw [show is.length + 1 - 1 = is.length from by omega,
      List.getD_append_right _ _ _ _ (by omega)]
    simp
  have hgetpre : ∀ i ∈ List.range' 1 is.length,
      (fun i => (Nat.repr i, dset ((is ++ [o]).getD (i - 1) []) "id" (Nat.repr i))) i
        = (fun i => (Nat.repr i, dset (is.getD (i - 1) []) "id" (Nat.repr i))) i := by
    intro i hi
    rw [List.mem_range'_1] at hi
    have hii : i - 1 < is.length := by omega
    simp only
    rw [List.getD_append _ _ _ _ hii]
  unfold InMemoryModel.add
  rw [modelAfter_counter, modelAfter_max, if_neg (by omega)]
  dsimp only
  rw [hobj, List.length_append, hlenobj]
  by_cases hkN : is.length < N
  · have hwk : min is.length N = is.length := by omega
    rw [if_neg (by simp only [List.length_cons, List.length_nil]; omega)]
    refine congrArg Except.ok (Prod.ext ?_ rfl)
    have hk1 : min (is ++ [o]).length N = is.length + 1 := by
      simp only [List.length_append, List.length_cons, List.length_nil]
      omega
    have hw1 : (is ++ [o]).length + 1 - (is.length + 1) = 1 := by
      simp only [List.length_append, List.length_cons, List.length_nil]
      omega
    refine imExt _ _ rfl ?_ ?_ ?_
    · show (modelAfter N is).objects ++ _ = (modelAfter N (is ++ [o])).objects
      rw [modelAfter_objects, modelAfter_objects, hk1, hw1, hwk,
        show is.length + 1 - is.length = 1 from by omega,
        List.range'_concat 1 is.length, List.map_append,
        List.map_congr_left hgetpre]
      simp only [List.map_cons, List.map_nil]
      rw [show 1 + 1 * is.length = is.length + 1 from by omega, hgetlast]
    · show (modelAfter N is).last_accessed_ids ++ _
        = (modelAfter N (is ++ [o])).last_accessed_ids
      rw [modelAfter_last, modelAfter_last, hk1, hw1, hwk,
        show is.length + 1 - is.length = 1 from by omega,
        List.range'_concat 1 is.length, List.map_append]
      simp only [List.map_cons, List.map_nil]
      rw [show 1 + 1 * is.length = is.length + 1 from by omega]
    · show is.length + 1 + 1 = (modelAfter N (is ++ [o])).current_id_counter
      rw [modelAfter_counter]
      simp
  · obtain ⟨M, rfl⟩ : ∃ M, N = M + 1 := ⟨N - 1, by omega⟩
    have hwk : min is.length (M + 1) = M + 1 := by omega
    rw [if_pos (by simp only [List.length_cons, List.length_nil]; omega)]
    have hids : (modelAfter (M + 1) is).last_accessed_ids
        = Nat.repr (is.length - M)
          :: (List.range' (is.length - M + 1) M).map Nat.repr := by
      rw [modelAfter_last, hwk, List.range'_succ]
      rw [show is.length + 1 - (M + 1) = is.length - M from by omega]
      simp only [List.map_cons]
    have hobjcons : (modelAfter (M + 1) is).objects
        = (Nat.repr (is.length - M),
            dset (is.getD (is.length - M - 1) []) "id"
              (Nat.repr (is.length - M)))
          :: (List.range' (is.length - M + 1) M).map
              (fun i => (Nat.repr i, dset (is.getD (i - 1) []) "id"
                (Nat.repr i))) := by
      rw [modelAfter_objects, hwk, List.range'_succ]
      rw [show is.length + 1 - (M + 1) = is.length - M from by omega]
      simp only [List.map_cons]
    rw [hids, hobjcons]
    simp only [List.head?_cons, List.cons_append, ddel, if_pos rfl,
      List.drop_succ_cons, List.drop_zero]
    refine congrArg Except.ok (Prod.ext ?_ rfl)
    have hk1 : min (is ++ [o]).length (M + 1) = M + 1 := by
      simp only [List.length_append, List.length_cons, List.length_nil]
      omega
    have hw1 : (is ++ [o]).length + 1 - (M + 1) = is.length - M + 1 := by
      simp only [List.length_append, List.length_cons, List.length_nil]
      omega
    refine imExt _ _ rfl ?_ ?_ ?_
    · show _ ++ _ = (modelAfter (M + 1) (is ++ [o])).objects
      rw [modelAfter_objects, hk1, hw1]
      rw [List.range'_concat (is.length - M + 1) M, List.map_append,
        List.map_congr_left (fun i hi => hgetpre i (by
          rw [List.mem_range'_1] at hi ⊢
          omega))]
      simp only [List.map_cons, List.map_nil]
      rw [show is.length - M + 1 + 1 * M = is.length + 1 from by omega,
        hgetlast]
    · show _ ++ _ = (modelAfter (M + 1) (is ++ [o])).last_accessed_ids
      rw [modelAfter_last, hk1, hw1]
      rw [List.range'_concat (is.length - M + 1) M, List.map_append]
      simp only [List.map_cons, List.map_nil]
      rw [show is.length - M + 1 + 1 * M = is.length + 1 from by omega]
    · show is.length + 1 + 1 = (modelAfter (M + 1) (is ++ [o])).current_id_counter
      rw [modelAfter_counter]
      simp

/-- The canonical characterization of any sequence of successful adds from
a fresh store. -/
theorem runAdds_eq (maxIdLen N : Nat) (hN : 1 ≤ N) (inputs : List DictObj)
    (hlen : ∀ i ∈ List.range' 1 inputs.length, (Nat.repr i).length ≤ maxIdLen) :
    runAdds maxIdLen (freshModel N) inputs
      = (modelAfter N inputs,
         (List.range' 1 inputs.length).map
           (fun i => dset (inputs.getD (i - 1) []) "id" (Nat.repr i))) := by
  induction inputs using List.reverseRecOn with
  | nil => simp [runAdds, modelAfter_nil]
  | append_singleton is o ih =>
    have hlen' : ∀ i ∈ List.range' 1 is.length, (Nat.repr i).length ≤ maxIdLen := by
      intro i hi
      refine hlen i ?_
      rw [List.mem_range'_1] at hi ⊢
      simp only [List.length_append, List.length_cons, List.length_nil]
      omega
    have hlast : (Nat.repr (is.length + 1)).length ≤ maxIdLen := by
      refine hlen (is.length + 1) ?_
      rw [List.mem_range'_1]
      simp only [List.length_append, List.length_cons, List.length_nil]
      omega
    rw [runAdds_append, ih hlen']
    simp only [runAdds, add_modelAfter maxIdLen N hN is o hlast]
    refine Prod.ext rfl ?_
    show (List.range' 1 is.length).map
        (fun i => dset (is.getD (i - 1) []) "id" (Nat.repr i))
      ++ [dset o "id" (Nat.repr (is.length + 1))] = _
    rw [show (is ++ [o]).length = is.length + 1 from by simp,
      List.range'_concat 1 is.length, List.map_append]
    refine congrArg₂ _ (List.map_congr_left ?_).symm ?_
    · intro i hi
      rw [List.mem_range'_1] at hi
      have hii : i - 1 < is.length := by omega
      show dset ((is ++ [o]).getD (i - 1) []) "id" (Nat.repr i)
        = dset (is.getD (i - 1) []) "id" (Nat.repr i)
      rw [List.getD_append _ _ _ _ hii]
    · simp only [List.map_cons, List.map_nil]
      rw [show 1 + 1 * is.length = is.length + 1 from by omega,
        show is.length + 1 - 1 = is.length from by omega,
        List.getD_append_right _ _ _ _ (by omega)]
      simp

/-- C6: over any sequence of `add` calls on a store of capacity `N ≥ 1`
(with the id-length cap not reached), the assigned ids are the decimal
renderings of the strictly increasing counter values `1..k` and are pairwise
distinct even across evictions; after every completed prefix the store holds
at most `N` objects; and after exactly `N + 1` adds the single oldest id
(`"1"`) has been evicted while the access-order list is exactly the decimal
ids `2..N+1`, oldest first. -/
theorem claim_C6_theorem (maxIdLen N : Nat) (inputs : List DictObj)
    (hN : 1 ≤ N)
    (hlen : ∀ i ∈ List.range' 1 inputs.length, (Nat.repr i).length ≤ maxIdLen) :
    ((runAdds maxIdLen (freshModel N) inputs).2.map (fun o => dget o "id")
        = (List.range' 1 inputs.length).map (fun i => some (Nat.repr i)))
    ∧ ((List.range' 1 inputs.length).map Nat.repr).Nodup
    ∧ (∀ t, (runAdds maxIdLen (freshModel N) (inputs.take t)).1.objects.length ≤ N)
    ∧ (inputs.length = N + 1 →
        dget (runAdds maxIdLen (freshModel N) inputs).1.objects (Nat.repr 1) = none
        ∧ (runAdds maxIdLen (freshModel N) inputs).1.last_accessed_ids
            = (List.range' 2 N).map Nat.repr
        ∧ ∀ i ∈ List.range' 2 N,
            (dget (runAdds maxIdLen (freshModel N) inputs).1.objects
              (Nat.repr i)).isSome = true) := by
  have hrinj : Function.Injective Nat.repr := fun a b h => repr_inj h
  refine ⟨?_, ?_, ?_, ?_⟩
  · rw [runAdds_eq maxIdLen N hN inputs hlen]
    show ((List.range' 1 inputs.length).map
      (fun i => dset (inputs.getD (i - 1) []) "id" (Nat.repr i))).map
        (fun o => dget o "id") = _
    rw [List.map_map]
    refine List.map_congr_left ?_
    intro i _
    exact dget_dset_eq _ _ _
  · exact (List.nodup_range' 1 inputs.length).map hrinj
  · intro t
    have hlen' : ∀ i ∈ List.range' 1 (inputs.take t).length,
        (Nat.repr i).length ≤ maxIdLen := by
      intro i hi
      refine hlen i ?_
      rw [List.mem_range'_1] at hi ⊢
      rw [List.length_take] at hi
      omega
    rw [runAdds_eq maxIdLen N hN (inputs.take t) hlen']
    show (modelAfter N (inputs.take t)).objects.length ≤ N
    rw [modelAfter_objects, List.length_map, List.length_range']
    exact Nat.min_le_right _ _
  · intro hk
    rw [runAdds_eq maxIdLen N hN inputs hlen]
    have hwin : min inputs.length N = N := by omega
    have hlo : inputs.length + 1 - N = 2 := by omega
    have hobjs : (modelAfter N inputs).objects
        = (List.range' 2 N).map
            (fun i => (Nat.repr i, dset (inputs.getD (i - 1) []) "id"
              (Nat.repr i))) := by
      rw [modelAfter_objects, hwin, hlo]
    have hkeys : (modelAfter N inputs).objects.map Prod.fst
        = (List.range' 2 N).map Nat.repr := by
      rw [hobjs, List.map_map]
      rfl
    refine ⟨?_, ?_, ?_⟩
    · refine dget_eq_none _ _ ?_
      intro p hp
      rw [hobjs, List.mem_map] at hp
      obtain ⟨i, hi, hpe⟩ := hp
      rw [List.mem_range'_1] at hi
      intro he
      rw [← hpe] at he
      have := repr_inj he
      omega
    · rw [modelAfter_last, hwin, hlo]
    · intro i hi
      have hp : (Nat.repr i, dset (inputs.getD (i - 1) []) "id" (Nat.repr i))
          ∈ (modelAfter N inputs).objects := by
        rw [hobjs]
        exact List.mem_map_of_mem _ hi
      have hnd : keysNodup (modelAfter N inputs).objects := by
        show ((modelAfter N inputs).objects.map Prod.fst).Nodup
        rw [hkeys]
        exact (List.nodup_range' 2 N).map hrinj
      have := dget_of_mem _ _ hnd hp
      rw [this]
      rfl

/-- Witness for C6 at the spec's scenario: capacity 3, four adds; the first
id is unreachable and the access order is `["2", "3", "4"]`. -/
theorem claim_C6_witness :
    dget (runAdds 64 (freshModel 3) [[], [], [], []]).1.objects (Nat.repr 1) = none
    ∧ (runAdds 64 (freshModel 3) [[], [], [], []]).1.last_accessed_ids
        = (List.range' 2 3).map Nat.repr :=
  ⟨((claim_C6_theorem 64 3 [[], [], [], []] (by decide) (by decide)).2.2.2 rfl).1,
   ((claim_C6_theorem 64 3 [[], [], [], []] (by decide) (by decide)).2.2.2 rfl).2.1⟩

/-! ## C10: the token order list can hold a token twice -/

/-! ## The token structures under the public operations -/

theorem handleEviction_frame (c : Container) (idf : String)
    (ip : Option String) :
    (handleEviction c idf ip).heap = c.heap
    ∧ (handleEviction c idf ip).index_map = c.index_map
    ∧ (handleEviction c idf ip).jwt_to_session = c.jwt_to_session
    ∧ (handleEviction c idf ip).jwt_to_session_order = c.jwt_to_session_order
    ∧ (handleEviction c idf ip).maxSessions = c.maxSessions := by
  unfold handleEviction
  split
  · exact ⟨rfl, rfl, rfl, rfl, rfl⟩
  · dsimp only
    split
    · exact ⟨rfl, rfl, rfl, rfl, rfl⟩
    · split
      · exact ⟨rfl, rfl, rfl, rfl, rfl⟩
      · exact ⟨rfl, rfl, rfl, rfl, rfl⟩

theorem popRaw_frame (c : Container) :
    (popRaw c).2.jwt_to_session = c.jwt_to_session
    ∧ (popRaw c).2.jwt_to_session_order = c.jwt_to_session_order
    ∧ (popRaw c).2.ip_to_sessions = c.ip_to_sessions
    ∧ (popRaw c).2.maxSessions = c.maxSessions := by
  unfold popRaw
  split
  · exact ⟨rfl, rfl, rfl, rfl⟩
  · dsimp only
    split
    · exact ⟨rfl, rfl, rfl, rfl⟩
    · split
      · exact ⟨rfl, rfl, rfl, rfl⟩
      · exact ⟨rfl, rfl, rfl, rfl⟩

theorem pushRaw_frame (c : Container) (p : Nat) (sid : String) (d : Storage)
    (ip : Option String) :
    (pushRaw c p sid d ip).jwt_to_session = c.jwt_to_session
    ∧ (pushRaw c p sid d ip).jwt_to_session_order = c.jwt_to_session_order
    ∧ (pushRaw c p sid d ip).ip_to_sessions = c.ip_to_sessions
    ∧ (pushRaw c p sid d ip).maxSessions = c.maxSessions :=
  ⟨rfl, rfl, rfl, rfl⟩

theorem updateRaw_ok_frame (c : Container) (sid : String) (p : Nat)
    (c1 : Container) (h : updateRaw c sid p = Except.ok c1) :
    c1.jwt_to_session = c.jwt_to_session
    ∧ c1.jwt_to_session_order = c.jwt_to_session_order
    ∧ c1.ip_to_sessions = c.ip_to_sessions
    ∧ c1.maxSessions = c.maxSessions := by
  unfold updateRaw at h
  split at h
  · cases h
  · dsimp only at h
    split at h
    · obtain rfl := Except.ok.inj h
      exact ⟨rfl, rfl, rfl, rfl⟩
    · split at h
      · obtain rfl := Except.ok.inj h
        exact ⟨rfl, rfl, rfl, rfl⟩
      · obtain rfl := Except.ok.inj h
        exact ⟨rfl, rfl, rfl, rfl⟩

theorem evictLoop_frame (mp fuel : Nat) (c : Container) (nip : String) :
    (evictLoop mp fuel c nip).1.jwt_to_session = c.jwt_to_session
    ∧ (evictLoop mp fuel c nip).1.jwt_to_session_order = c.jwt_to_session_order
    ∧ (evictLoop mp fuel c nip).1.maxSessions = c.maxSessions := by
  induction fuel generalizing c with
  | zero => exact ⟨rfl, rfl, rfl⟩
  | succ fuel ih =>
    unfold evictLoop
    dsimp only
    split
    · split
      · exact ⟨rfl, rfl, rfl⟩
      · split
        · exact ⟨rfl, rfl, rfl⟩
        · rename_i c1 hup
          obtain ⟨h1, h2, h3⟩ := ih { (popRaw c1).2 with
            ip_to_sessions := dset (popRaw c1).2.ip_to_sessions nip
              (((dget (popRaw c1).2.ip_to_sessions nip).getD []).drop 1) }
          obtain ⟨hu1, hu2, _, hu4⟩ := updateRaw_ok_frame _ _ _ _ hup
          obtain ⟨hp1, hp2, _, hp4⟩ := popRaw_frame c1
          exact ⟨h1.trans (hp1.trans hu1), h2.trans (hp2.trans hu2),
            h3.trans (hp4.trans hu4)⟩
    · exact ⟨rfl, rfl, rfl⟩

theorem handleAddition_frame (mp : Nat) (c : Container) (idf : String)
    (ip : Option String) :
    (handleAddition mp c idf ip).1.jwt_to_session = c.jwt_to_session
    ∧ (handleAddition mp c idf ip).1.jwt_to_session_order
      = c.jwt_to_session_order
    ∧ (handleAddition mp c idf ip).1.maxSessions = c.maxSessions := by
  unfold handleAddition
  split
  · exact ⟨rfl, rfl, rfl⟩
  · dsimp only
    split
    · exact ⟨rfl, rfl, rfl⟩
    · exact ⟨(evictLoop_frame _ _ _ _).1, (evictLoop_frame _ _ _ _).2.1,
        (evictLoop_frame _ _ _ _).2.2⟩

theorem reattribution_frame (mp : Nat) (c : Container) (sessionId : String)
    (savedIp : Option String) (nip : String) :
    (reattribution mp c sessionId savedIp nip).1.jwt_to_session
      = c.jwt_to_session
    ∧ (reattribution mp c sessionId savedIp nip).1.jwt_to_session_order
      = c.jwt_to_session_order
    ∧ (reattribution mp c sessionId savedIp nip).1.maxSessions
      = c.maxSessions := by
  unfold reattribution
  split
  · exact ⟨rfl, rfl, rfl⟩
  · dsimp only
    split
    · exact ⟨(evictLoop_frame _ _ _ _).1, (evictLoop_frame _ _ _ _).2.1,
        (evictLoop_frame _ _ _ _).2.2⟩
    · split
      · exact ⟨(evictLoop_frame _ _ _ _).1, (evictLoop_frame _ _ _ _).2.1,
          (evictLoop_frame _ _ _ _).2.2⟩
      · split
        · exact ⟨(evictLoop_frame _ _ _ _).1, (evictLoop_frame _ _ _ _).2.1,
            (evictLoop_frame _ _ _ _).2.2⟩
        · exact ⟨(evictLoop_frame _ _ _ _).1, (evictLoop_frame _ _ _ _).2.1,
            (evictLoop_frame _ _ _ _).2.2⟩

theorem handlePriority_frame (mp : Nat) (c : Container) (sessionId : String)
    (ip : Option String) :
    (handlePriority mp c sessionId ip).1.jwt_to_session = c.jwt_to_session
    ∧ (handlePriority mp c sessionId ip).1.jwt_to_session_order
      = c.jwt_to_session_order
    ∧ (handlePriority mp c sessionId ip).1.maxSessions = c.maxSessions := by
  unfold handlePriority
  split
  · exact ⟨rfl, rfl, rfl⟩
  · dsimp only
    split
    · exact ⟨rfl, rfl, rfl⟩
    · split
      · split
        · exact ⟨rfl, rfl, rfl⟩
        · exact ⟨rfl, rfl, rfl⟩
      · exact ⟨(reattribution_frame _ _ _ _ _).1,
          (reattribution_frame _ _ _ _ _).2.1,
          (reattribution_frame _ _ _ _ _).2.2⟩

theorem containerPush_frame (mp : Nat) (c : Container) (p : Nat)
    (sid : String) (d : Storage) (ip : Option String) :
    (Container.push mp c p sid d ip).1.jwt_to_session = c.jwt_to_session
    ∧ (Container.push mp c p sid d ip).1.jwt_to_session_order
      = c.jwt_to_session_order
    ∧ (Container.push mp c p sid d ip).1.maxSessions = c.maxSessions := by
  unfold Container.push
  exact ⟨(handleAddition_frame _ _ _ _).1, (handleAddition_frame _ _ _ _).2.1,
    (handleAddition_frame _ _ _ _).2.2⟩

theorem containerPop_frame (c : Container) :
    (Container.pop c).2.jwt_to_session = c.jwt_to_session
    ∧ (Container.pop c).2.jwt_to_session_order = c.jwt_to_session_order
    ∧ (Container.pop c).2.maxSessions = c.maxSessions := by
  unfold Container.pop
  split
  · rename_i c1 heq
    have h := popRaw_frame c
    rw [heq] at h
    exact ⟨h.1, h.2.1, h.2.2.2⟩
  · rename_i it c1 heq
    have h := popRaw_frame c
    rw [heq] at h
    have h2 := handleEviction_frame c1 it.sid it.ip
    exact ⟨h2.2.2.1.trans h.1, h2.2.2.2.1.trans h.2.1,
      h2.2.2.2.2.trans h.2.2.2⟩

theorem containerUpdate_frame (mp : Nat) (c : Container) (sid : String)
    (np : Nat) (ip : Option String) :
    (Container.update_priority mp c sid np ip).1.jwt_to_session
      = c.jwt_to_session
    ∧ (Container.update_priority mp c sid np ip).1.jwt_to_session_order
      = c.jwt_to_session_order
    ∧ (Container.update_priority mp c sid np ip).1.maxSessions
      = c.maxSessions := by
  unfold Container.update_priority
  split
  · exact ⟨rfl, rfl, rfl⟩
  · rename_i c1 heq
    have h := updateRaw_ok_frame c sid np c1 heq
    have h2 := handlePriority_frame mp c1 sid ip
    exact ⟨h2.1.trans h.1, h2.2.1.trans h.2.1, h2.2.2.trans h.2.2.2⟩

theorem get_storage_frame (cfg : Cfg) (c : Container)
    (cookie ip jwt : Option String) (now : Nat) (freshId : String) :
    (Container.get_storage cfg c cookie ip jwt now freshId).1.jwt_to_session
      = c.jwt_to_session
    ∧ (Container.get_storage cfg c cookie ip jwt now
        freshId).1.jwt_to_session_order
      = (computeTarget c cookie jwt freshId).2 := by
  unfold Container.get_storage
  dsimp only
  split
  · split
    · constructor
      · rw [(containerPush_frame _ _ _ _ _ _).1]
        split
        · rw [(containerPop_frame _).1]
        · rfl
      · rw [(containerPush_frame _ _ _ _ _ _).2.1]
        split
        · rw [(containerPop_frame _).2.1]
        · rfl
    · split
      · constructor
        · rw [(containerPush_frame _ _ _ _ _ _).1]
          split
          · rw [(containerPop_frame _).1]
          · rfl
        · rw [(containerPush_frame _ _ _ _ _ _).2.1]
          split
          · rw [(containerPop_frame _).2.1]
          · rfl
      · constructor
        · rw [(containerPush_frame _ _ _ _ _ _).1]
          split
          · rw [(containerPop_frame _).1]
          · rfl
        · rw [(containerPush_frame _ _ _ _ _ _).2.1]
          split
          · rw [(containerPop_frame _).2.1]
          · rfl
  · split
    · exact ⟨(containerUpdate_frame _ _ _ _ _).1,
        (containerUpdate_frame _ _ _ _ _).2.1⟩
    · exact ⟨(containerUpdate_frame _ _ _ _ _).1,
        (containerUpdate_frame _ _ _ _ _).2.1⟩

theorem computeTarget_order (c : Container) (cookie jwt : Option String)
    (freshId : String) :
    (computeTarget c cookie jwt freshId).2 = c.jwt_to_session_order
    ∨ ∃ tok s, jwt = some tok ∧ dget c.jwt_to_session tok = some s
        ∧ (computeTarget c cookie jwt freshId).2
          = c.jwt_to_session_order.filter (fun e => e ≠ s) ++ [tok] := by
  by_cases hc : cookie.getD "" = "" ∧ truthy jwt = true
  · cases hdg : dget c.jwt_to_session (jwt.getD "") with
    | none =>
      left
      simp [computeTarget, hc.1, hc.2, hdg]
    | some s =>
      by_cases hs : s ≠ "" ∧ (dget c.index_map s).isSome = true
      · right
        obtain ⟨j, rfl⟩ : ∃ j, jwt = some j := by
          cases jwt with
          | none => exact absurd hc.2 (by simp [truthy])
          | some j => exact ⟨j, rfl⟩
        refine ⟨j, s, rfl, by simpa using hdg, ?_⟩
        have hdg2 : dget c.jwt_to_session j = some s := by simpa using hdg
        simp [computeTarget, hc.1, hc.2, hdg2, hs]
      · left
        simp [computeTarget, hc.1, hc.2, hdg, hs]
  · left
    rw [Decidable.not_and_iff_or_not] at hc
    cases hc with
    | inl h => simp [computeTarget, h]
    | inr h => simp [computeTarget, h]

theorem tokSetEq_order_rewrite (c : Container) (tok s : String)
    (hdg : dget c.jwt_to_session tok = some s)
    (hnone : dget c.jwt_to_session s = none)
    (h : tokSetEq c) (t : String) :
    t ∈ c.jwt_to_session_order.filter (fun e => e ≠ s) ++ [tok]
      ↔ (dget c.jwt_to_session t).isSome := by
  rw [List.mem_append, List.mem_filter]
  constructor
  · rintro (⟨hmem, _⟩ | hmem)
    · exact (h t).mp hmem
    · have ht : t = tok := by simpa using hmem
      rw [ht, hdg]
      rfl
  · intro hsome
    by_cases hts : t = s
    · rw [hts, hnone] at hsome
      simp at hsome
    · left
      exact ⟨(h t).mpr hsome, by simp [hts]⟩

theorem dget_filter_rem (c : Container) (tokn sid : String)
    (m : List (String × String)) (t : String) :
    dget (m.filter (fun p => ¬ bindToRem c tokn sid p.1)) t
      = if bindToRem c tokn sid t then none else dget m t := by
  induction m with
  | nil => simp [dget]
  | cons hd tl ih =>
    obtain ⟨k, v⟩ := hd
    by_cases hq : bindToRem c tokn sid k = true
    · rw [List.filter_cons_of_neg (by simp [hq])]
      rw [ih]
      by_cases hk : k = t
      · subst hk
        simp [hq]
      · simp [dget, hk]
    · rw [List.filter_cons_of_pos (by simp [hq])]
      by_cases hk : k = t
      · subst hk
        simp [dget, hq]
      · simp only [dget, if_neg hk]
        exact ih

/-- C10 as stated is false: after creating session `sid`, binding token
`tok` to it and then resolving `tok` without a cookie (a reachable public
operation sequence), the order list is `["tok", "tok"]` — the resolution
branch filters the order list by the resolved *session id* and appends the
token, duplicating it. -/
theorem claim_C10_counterexample :
    ReachTok cfgIp2 traceC10 ∧ traceC10.jwt_to_session_order.count "tok" = 2 := by
  constructor
  · refine ReachTok.gs none none (some "tok") 2 "f2" ?_
      (ReachTok.bind "tok" "sid"
        (ReachTok.gs (some "sid") none none 1 "f1"
          (fun tok s h => by cases h) (ReachTok.init 10)))
    intro tok s htok hsome
    cases htok
    have hfact : dget traceC10b.jwt_to_session "tok" = some "sid" := by decide
    rw [hfact] at hsome
    cases hsome
    decide
  · decide

/-! ## C1: heap invariant -/

/-- C10 (amended): after every sequence of public container operations in
which a token's bound session id is never itself a bound token, the set of
elements of `jwt_to_session_order` equals the set of keys of
`jwt_to_session`; the order list may nevertheless hold a token more than
once, because the token-resolution branch of `get_storage` filters the
order list by the resolved session id rather than by the token — see
`claim_C10_counterexample`. -/
theorem claim_C10_theorem (cfg : Cfg) (c : Container)
    (hreach : ReachTok cfg c) : tokSetEq c := by
  induction hreach with
  | init n =>
    intro t
    simp [Container.init, dget]
  | gs cookie ip jwt now freshId hdisj hr ih =>
    rename_i c0
    intro t
    rw [(get_storage_frame cfg c0 cookie ip jwt now freshId).1,
        (get_storage_frame cfg c0 cookie ip jwt now freshId).2]
    rcases computeTarget_order c0 cookie jwt freshId with he | ⟨tok, s, hjw, hdg, he⟩
    · rw [he]
      exact ih t
    · rw [he]
      exact tokSetEq_order_rewrite c0 tok s hdg (hdisj tok s hjw hdg) ih t
  | bind tok sid hr ih =>
    rename_i c0
    intro t
    unfold Container.bind_jwt_to_session_id
    split
    · exact ih t
    · dsimp only
      split
      · dsimp only
        constructor
        · intro hmem
          rw [List.mem_filter] at hmem
          rw [dget_filter_rem, if_neg (by simpa using hmem.2)]
          exact (ih t).mp hmem.1
        · intro hsome
          rw [dget_filter_rem] at hsome
          rw [List.mem_filter]
          by_cases hb : bindToRem c0 tok sid t = true
          · rw [if_pos hb] at hsome
            simp at hsome
          · rw [if_neg hb] at hsome
            exact ⟨(ih t).mpr hsome, by simpa using hb⟩
      · dsimp only
        by_cases htk : t = tok
        · subst htk
          constructor
          · intro _
            rw [dget_dset_eq]
            rfl
          · intro _
            exact List.mem_append.mpr (Or.inr (by simp))
        · rw [dget_dset_ne _ _ _ _ (fun he => htk he.symm)]
          rw [List.mem_append, List.mem_filter]
          constructor
          · rintro (⟨hmem, hrem⟩ | hmem)
            · rw [dget_filter_rem, if_neg (by simpa using hrem)]
              exact (ih t).mp hmem
            · exact absurd (by simpa using hmem) htk
          · intro hsome
            rw [dget_filter_rem] at hsome
            by_cases hb : bindToRem c0 tok sid t = true
            · rw [if_pos hb] at hsome
              simp at hsome
            · rw [if_neg hb] at hsome
              exact Or.inl ⟨(ih t).mpr hsome, by simpa using hb⟩
  | push p sid d ip hr ih =>
    intro t
    rw [(containerPush_frame cfg.maxPerIp _ p sid d ip).1,
        (containerPush_frame cfg.maxPerIp _ p sid d ip).2.1]
    exact ih t
  | pop hr ih =>
    intro t
    rw [(containerPop_frame _).1, (containerPop_frame _).2.1]
    exact ih t

/-- Witness for C10: the correspondence holds after a concrete bind on a
fresh container. -/
theorem claim_C10_witness :
    tokSetEq (Container.bind_jwt_to_session_id (Container.init 4)
      "tok" "sid").1 :=
  claim_C10_theorem cfgIp2 _ (ReachTok.bind "tok" "sid" (ReachTok.init 4))

/-- C1 as stated is false: `_push` with a session id already in the index
is one of the quantified operations, and after `_push(1, "a")` then
`_push(2, "a")` the index map sends `"a"` to position 1 while the item in
position 0 also carries id `"a"`, so `index_map` does not map that stored
item's id to its position. -/
theorem claim_C1_counterexample : ReachRaw c1CexState ∧ ¬ ClaimInv c1CexState := by
  constructor
  · exact ReachRaw.push 2 "a" regStorage none
      (ReachRaw.push 1 "a" regStorage none (ReachRaw.init 100))
  · intro h
    have h0 := (h.2 0 (by decide)).1
    exact absurd h0 (by decide)

/-! ## C4: credential recovery -/

/-- C4 as stated is false: a user is registered in session `s1`'s store,
`s1` is evicted by `pop`, and — with no other session referencing the data
— the subsequent credential lookup returns nothing instead of succeeding. -/
theorem claim_C4_counterexample :
    Container.find_session_by_credentials c4CexState "a@b.c" "h"
      = some ("s1", regStorage)
    ∧ (Container.pop c4CexState).1 = some ⟨1, "s1", regStorage, 0, none⟩
    ∧ Container.find_session_by_credentials (Container.pop c4CexState).2
        "a@b.c" "h" = none := by
  decide

/-- The first-match behaviour of the credential scan: when some heap item's
user store contains a matching record, the scan returns a session of the
heap whose store contains a matching record. -/
theorem find_session_spec (l : List Item) (email hp : String)
    (h : ∃ it ∈ l,
      it.data.users.values.any (fun u => userMatches u email hp) = true) :
    ∃ it ∈ l,
      (l.findSome? fun it =>
        if it.data.users.values.any (fun u => userMatches u email hp)
        then some (it.sid, it.data) else none) = some (it.sid, it.data)
      ∧ it.data.users.values.any (fun u => userMatches u email hp) = true := by
  induction l with
  | nil =>
    rcases h with ⟨it, hit, _⟩
    cases hit
  | cons hd t ih =>
    by_cases hhd : hd.data.users.values.any (fun u => userMatches u email hp) = true
    · refine ⟨hd, List.mem_cons_self _ _, ?_, hhd⟩
      rw [List.findSome?_cons, if_pos hhd]
    · have h' : ∃ it ∈ t,
          it.data.users.values.any (fun u => userMatches u email hp) = true := by
        rcases h with ⟨it, hit, hm⟩
        cases hit with
        | head => exact absurd hm hhd
        | tail _ hit => exact ⟨it, hit, hm⟩
      rcases ih h' with ⟨it, hit, hfind, hm⟩
      refine ⟨it, List.mem_cons_of_mem _ hit, ?_, hm⟩
      rw [List.findSome?_cons, if_neg hhd]
      exact hfind

/-- C4 amended: when the popped session's data is still referenced by a
live session (multi-device login) and the matching credentials identify a
unique user record across live sessions, the credential lookup after the
eviction succeeds and returns a session whose store holds exactly the
pre-eviction user record. -/
theorem claim_C4_theorem (c : Container) (email hp : String) (u0 : DictObj)
    (st0 : Storage)
    (hreg : ∃ u ∈ st0.users.values, userMatches u email hp = true ∧ u = u0)
    (hshared : ∃ it ∈ (Container.pop c).2.heap, it.data = st0)
    (huniq : ∀ it ∈ (Container.pop c).2.heap, ∀ u ∈ it.data.users.values,
      userMatches u email hp = true → u = u0) :
    ∃ sid st,
      Container.find_session_by_credentials (Container.pop c).2 email hp
        = some (sid, st)
      ∧ ∃ u ∈ st.users.values, userMatches u email hp = true ∧ u = u0 := by
  rcases hreg with ⟨u, hu, hum, hu0⟩
  rcases hshared with ⟨it0, hit0, hdata⟩
  have hany : ∃ it ∈ (Container.pop c).2.heap,
      it.data.users.values.any (fun u => userMatches u email hp) = true := by
    refine ⟨it0, hit0, ?_⟩
    rw [hdata]
    exact List.any_eq_true.mpr ⟨u, hu, hum⟩
  rcases find_session_spec (Container.pop c).2.heap email hp hany
    with ⟨it, hit, hfind, hm⟩
  rcases List.any_eq_true.mp hm with ⟨u1, hu1, hm1⟩
  exact ⟨it.sid, it.data, hfind, u1, hu1, hm1,
    huniq it hit u1 hu1 hm1⟩

/-- Witness for C4 amended: two sessions share the registered storage; the
older is popped; the lookup still finds the registered record. -/
theorem claim_C4_witness :
    ∃ sid st,
      Container.find_session_by_credentials (Container.pop c4WitState).2
        "a@b.c" "h" = some (sid, st)
      ∧ ∃ u ∈ st.users.values, userMatches u "a@b.c" "h" = true ∧ u = regUser :=
  claim_C4_theorem c4WitState "a@b.c" "h" regUser regStorage
    (by decide) (by decide) (by decide)

/-! ## C7: token resolution in `get_storage` -/

/-- Characterization of the cookie-less resolution step: the bound session
id is used iff the token is truthy, the binding exists, and the bound id is
truthy and in the index; every other case falls back to the fresh id with
the order list untouched. -/
theorem computeTarget_none_eq (c : Container) (jwtTok freshId : String) :
    computeTarget c none (some jwtTok) freshId =
      match dget c.jwt_to_session jwtTok with
      | some s =>
        if jwtTok ≠ "" ∧ s ≠ "" ∧ (dget c.index_map s).isSome = true then
          (s, c.jwt_to_session_order.filter (fun e => e ≠ s) ++ [jwtTok])
        else (freshId, c.jwt_to_session_order)
      | none => (freshId, c.jwt_to_session_order) := by
  by_cases hj : jwtTok = ""
  · subst hj
    cases hdg : dget c.jwt_to_session "" with
    | none => simp [computeTarget, truthy, hdg]
    | some s0 => simp [computeTarget, truthy, hdg]
  · cases hdg : dget c.jwt_to_session jwtTok with
    | none => simp [computeTarget, truthy, hj, hdg]
    | some s0 =>
      by_cases hs0 : s0 = ""
      · subst hs0
        simp [computeTarget, truthy, hj, hdg]
      · by_cases ha : (dget c.index_map s0).isSome = true
        · simp [computeTarget, truthy, hj, hdg, hs0, ha]
        · simp [computeTarget, truthy, hj, hdg, hs0, ha]

/-- C7: in the cookie-less resolution step of `get_storage`, a token
binding is accepted only if the bound session id is currently in the
priority queue's index, and whenever the binding is absent or stale the
resolution is a miss (no error is possible — the step is total) and the
fresh random id is used as the target. -/
theorem claim_C7_theorem (c : Container) (jwtTok freshId : String) :
    (∀ s, (computeTarget c none (some jwtTok) freshId).1 = s → s ≠ freshId →
      dget c.jwt_to_session jwtTok = some s
        ∧ (dget c.index_map s).isSome = true)
    ∧ ((dget c.jwt_to_session jwtTok = none ∨
        ∀ s, dget c.jwt_to_session jwtTok = some s →
          dget c.index_map s = none) →
      (computeTarget c none (some jwtTok) freshId).1 = freshId) := by
  rw [computeTarget_none_eq]
  cases hdg : dget c.jwt_to_session jwtTok with
  | none =>
    refine ⟨?_, fun _ => rfl⟩
    intro s hs hne
    exact absurd hs.symm hne
  | some s0 =>
    constructor
    · intro s hs hne
      dsimp only at hs
      by_cases hg : jwtTok ≠ "" ∧ s0 ≠ "" ∧ (dget c.index_map s0).isSome = true
      · rw [if_pos hg] at hs
        dsimp only at hs
        subst hs
        exact ⟨rfl, hg.2.2⟩
      · rw [if_neg hg] at hs
        exact absurd hs.symm hne
    · intro hstale
      have hdead : dget c.index_map s0 = none := by
        cases hstale with
        | inl habs => cases habs
        | inr hall => exact hall s0 rfl
      have hg : ¬(jwtTok ≠ "" ∧ s0 ≠ "" ∧ (dget c.index_map s0).isSome = true) := by
        intro hg
        rw [hdead] at hg
        exact absurd hg.2.2 (by simp)
      dsimp only
      rw [if_neg hg]

/-- Witness for C7: an accepted live binding and a stale-miss case at
concrete inputs. -/
theorem claim_C7_witness :
    (dget c7WitState.jwt_to_session "t" = some "s"
      ∧ (dget c7WitState.index_map "s").isSome = true)
    ∧ (computeTarget (Container.init 5) none (some "t") "f").1 = "f" :=
  ⟨(claim_C7_theorem c7WitState "t" "f").1 "s" (by decide) (by decide),
   (claim_C7_theorem (Container.init 5) "t" "f").2 (Or.inl rfl)⟩

/-! ## Snapshot non-destructiveness: drain and refill -/

theorem proj_fields (x y : Item) (h : proj x = proj y) :
    x.priority = y.priority ∧ x.sid = y.sid ∧ x.data = y.data
    ∧ x.ip = y.ip := by
  simpa [proj, Prod.ext_iff] using h

theorem itemKey_proj (x y : Item) (h : proj x = proj y) :
    itemKey x = itemKey y := by
  rw [itemKey, itemKey, (proj_fields x y h).2.2.2]

theorem hget_lt_eq (h : List Item) (i : Nat) (hi : i < h.length) :
    hget h i = h[i] := List.getD_eq_getElem h dItem hi

theorem mem_projs (h : List Item)
    (x : Nat × String × Storage × Option String) :
    x ∈ ((h.map proj : List _) : Multiset _)
      ↔ ∃ i, i < h.length ∧ proj (hget h i) = x := by
  rw [Multiset.mem_coe, List.mem_map]
  constructor
  · rintro ⟨a, ha, rfl⟩
    obtain ⟨i, hi, hAi⟩ := List.mem_iff_getElem.mp ha
    exact ⟨i, hi, by rw [hget_lt_eq h i hi, hAi]⟩
  · rintro ⟨i, hi, rfl⟩
    exact ⟨hget h i, by rw [hget_lt_eq h i hi]; exact List.getElem_mem hi, rfl⟩

theorem sid_inj (h : List Item) (im : List (String × Nat)) (him : imOk h im)
    (i j : Nat) (hi : i < h.length) (hj : j < h.length)
    (he : (hget h i).sid = (hget h j).sid) : i = j := by
  have h1 := him.1 i hi
  have h2 := him.1 j hj
  rw [he, h2] at h1
  exact (Option.some.inj h1).symm

theorem dget_some_mem {V : Type} (m : List (String × V)) (k : String) (v : V)
    (h : dget m k = some v) : (k, v) ∈ m := by
  induction m with
  | nil => cases h
  | cons hd t ih =>
    obtain ⟨k0, v0⟩ := hd
    by_cases hk : k0 = k
    · subst hk
      rw [dget, if_pos rfl] at h
      obtain rfl := Option.some.inj h
      exact List.mem_cons_self _ _
    · rw [dget, if_neg hk] at h
      exact List.mem_cons_of_mem _ (ih h)

theorem dget_none_not_mem {V : Type} (m : List (String × V)) (k : String)
    (h : dget m k = none) (v : V) : (k, v) ∉ m := by
  induction m with
  | nil => simp
  | cons hd t ih =>
    obtain ⟨k0, v0⟩ := hd
    by_cases hk : k0 = k
    · rw [dget, if_pos hk] at h
      cases h
    · rw [dget, if_neg hk] at h
      intro hmem
      rcases List.mem_cons.mp hmem with he | hmem2
      · exact hk (congrArg Prod.fst he).symm
      · exact ih h hmem2

theorem mem_ddel {V : Type} (m : List (String × V)) (k : String)
    (hnd : keysNodup m) (p : String × V) (hp : p ∈ ddel m k) :
    p ∈ m ∧ p.1 ≠ k := by
  induction m with
  | nil => cases hp
  | cons hd t ih =>
    obtain ⟨k0, v0⟩ := hd
    simp only [keysNodup, List.map_cons, List.nodup_cons] at hnd
    by_cases hk : k0 = k
    · subst hk
      rw [ddel, if_pos rfl] at hp
      refine ⟨List.mem_cons_of_mem _ hp, ?_⟩
      intro he
      exact hnd.1 (List.mem_map.mpr ⟨p, hp, he⟩)
    · rw [ddel, if_neg hk] at hp
      rcases List.mem_cons.mp hp with he | hp2
      · subst he
        exact ⟨List.mem_cons_self _ _, hk⟩
      · obtain ⟨h1, h2⟩ := ih hnd.2 hp2
        exact ⟨List.mem_cons_of_mem _ h1, h2⟩

theorem mem_dset {V : Type} (m : List (String × V)) (k : String) (v : V)
    (hnd : keysNodup m) (p : String × V) (hp : p ∈ dset m k v) :
    p = (k, v) ∨ (p ∈ m ∧ p.1 ≠ k) := by
  induction m with
  | nil =>
    rcases List.mem_singleton.mp hp with he
    exact Or.inl he
  | cons hd t ih =>
    obtain ⟨k0, v0⟩ := hd
    simp only [keysNodup, List.map_cons, List.nodup_cons] at hnd
    by_cases hk : k0 = k
    · subst hk
      rw [dset, if_pos rfl] at hp
      rcases List.mem_cons.mp hp with he | hp2
      · exact Or.inl he
      · refine Or.inr ⟨List.mem_cons_of_mem _ hp2, ?_⟩
        intro he
        exact hnd.1 (List.mem_map.mpr ⟨p, hp2, he⟩)
    · rw [dset, if_neg hk] at hp
      rcases List.mem_cons.mp hp with he | hp2
      · subst he
        exact Or.inr ⟨List.mem_cons_self _ _, hk⟩
      · rcases ih hnd.2 hp2 with he | ⟨h1, h2⟩
        · exact Or.inl he
        · exact Or.inr ⟨List.mem_cons_of_mem _ h1, h2⟩

theorem liveAt_shrink (h1 h2 : List Item) (r : Item)
    (hm : ((h2.map proj : List _)
        : Multiset (Nat × String × Storage × Option String)) + {proj r}
      = ((h1.map proj : List _) : Multiset _))
    (sid k : String) (hs : sid ≠ r.sid) (hl : liveAt h1 sid k) :
    liveAt h2 sid k := by
  obtain ⟨i, hi, hsid, hkey⟩ := hl
  have hmem : proj (hget h1 i) ∈ ((h1.map proj : List _) : Multiset _) :=
    (mem_projs h1 _).mpr ⟨i, hi, rfl⟩
  rw [← hm, Multiset.mem_add, Multiset.mem_singleton] at hmem
  rcases hmem with hmem | hproj
  · obtain ⟨j, hj, hpj⟩ := (mem_projs h2 _).mp hmem
    refine ⟨j, hj, ?_, ?_⟩
    · rw [(proj_fields _ _ hpj).2.1, hsid]
    · rw [itemKey_proj _ _ hpj, hkey]
  · exfalso
    have hx := (proj_fields _ _ hproj).2.1
    rw [hsid] at hx
    exact hs hx

theorem liveAt_grow (h1 h2 : List Item) (r : Item)
    (hm : ((h2.map proj : List _)
        : Multiset (Nat × String × Storage × Option String)) + {proj r}
      = ((h1.map proj : List _) : Multiset _))
    (sid k : String) (hl : liveAt h2 sid k) : liveAt h1 sid k := by
  obtain ⟨i, hi, hsid, hkey⟩ := hl
  have hmem : proj (hget h2 i) ∈ ((h1.map proj : List _) : Multiset _) := by
    rw [← hm, Multiset.mem_add]
    exact Or.inl ((mem_projs h2 _).mpr ⟨i, hi, rfl⟩)
  obtain ⟨j, hj, hpj⟩ := (mem_projs h1 _).mp hmem
  refine ⟨j, hj, ?_, ?_⟩
  · rw [(proj_fields _ _ hpj).2.1, hsid]
  · rw [itemKey_proj _ _ hpj, hkey]

theorem popRaw_some (c : Container) (hne : c.heap ≠ []) :
    (popRaw c).1 = some (hget c.heap 0) := by
  cases hh : c.heap.head? with
  | none => exact absurd (List.head?_eq_none_iff.mp hh) hne
  | some root =>
    have hr := hget_head c.heap root hh
    unfold popRaw
    rw [hh]
    dsimp only
    split
    · rw [hr]
    · split
      · rename_i hlast
        exact absurd (List.getLast?_eq_none_iff.mp hlast) hne
      · rw [hr]

theorem Inv_congr (a b : Container) (hh : b.heap = a.heap)
    (hi : b.index_map = a.index_map) (h : Inv a) : Inv b := by
  show swapInv b.heap b.index_map ∧ heapOrd b.heap
  rw [hh, hi]
  exact h

theorem pop_clean (c : Container) (hI : Inv c) (hD : DrainInv c)
    (hne : c.heap ≠ []) :
    (Container.pop c).1 = some (hget c.heap 0)
    ∧ Inv (Container.pop c).2
    ∧ DrainInv (Container.pop c).2
    ∧ (Container.pop c).2.heap.length + 1 = c.heap.length
    ∧ (Container.pop c).2.maxSessions = c.maxSessions
    ∧ ((((Container.pop c).2.heap.map proj : List _)
        : Multiset (Nat × String × Storage × Option String))
        + {proj (hget c.heap 0)}
      = ((c.heap.map proj : List _) : Multiset _)) := by
  obtain ⟨hI1, hnone_spec, hsome_spec⟩ := popRaw_inv c hI
  have hsome := popRaw_some c hne
  obtain ⟨hroot_eq, hlen, hmul⟩ := hsome_spec (hget c.heap 0) hsome
  obtain ⟨hnd, hbuck⟩ := hD
  have hips : (popRaw c).2.ip_to_sessions = c.ip_to_sessions :=
    (popRaw_frame c).2.2.1
  have hmaxs : (popRaw c).2.maxSessions = c.maxSessions :=
    (popRaw_frame c).2.2.2
  have hpop : Container.pop c
      = (some (hget c.heap 0),
         handleEviction (popRaw c).2 (hget c.heap 0).sid
           (hget c.heap 0).ip) := by
    unfold Container.pop
    have hpair : popRaw c = (some (hget c.heap 0), (popRaw c).2) :=
      Prod.ext hsome rfl
    rw [hpair]
  rw [hpop]
  have hev := handleEviction_frame (popRaw c).2 (hget c.heap 0).sid
    (hget c.heap 0).ip
  have hshr : ∀ sid k, sid ≠ (hget c.heap 0).sid → liveAt c.heap sid k →
      liveAt (popRaw c).2.heap sid k :=
    fun sid k hs hl => liveAt_shrink c.heap (popRaw c).2.heap (hget c.heap 0)
      hmul sid k hs hl
  have hlive_ne : ∀ p ∈ c.ip_to_sessions,
      itemKey (hget c.heap 0) ≠ some p.1 →
      ∀ sid ∈ p.2, sid ≠ (hget c.heap 0).sid := by
    intro p hp hkey sid hsid he
    obtain ⟨i, hi, hsi, hki⟩ := (hbuck p hp).2 sid hsid
    have h0 : (0 : Nat) < c.heap.length := List.length_pos.mpr hne
    have hij := sid_inj c.heap c.index_map hI.1.2.1 i 0 hi h0 (by rw [hsi, he])
    rw [hij] at hki
    exact hkey hki
  have hDrain : DrainInv (handleEviction (popRaw c).2 (hget c.heap 0).sid
      (hget c.heap 0).ip) := by
    by_cases ht : truthy (hget c.heap 0).ip = false
    · have hev2 : handleEviction (popRaw c).2 (hget c.heap 0).sid
          (hget c.heap 0).ip = (popRaw c).2 := by
        unfold handleEviction
        rw [if_pos ht]
      rw [hev2]
      have hkey0 : itemKey (hget c.heap 0) = none := by
        rw [itemKey, if_neg (by simp [ht])]
      refine ⟨by rw [hips]; exact hnd, ?_⟩
      rw [hips]
      intro p hp
      refine ⟨(hbuck p hp).1, ?_⟩
      intro sid hsid
      exact hshr sid p.1
        (hlive_ne p hp (by rw [hkey0]; exact fun h2 => Option.noConfusion h2)
          sid hsid)
        ((hbuck p hp).2 sid hsid)
    · have ht' : truthy (hget c.heap 0).ip = true := by
        cases hb : truthy (hget c.heap 0).ip
        · exact absurd hb ht
        · rfl
      have hkey0 : itemKey (hget c.heap 0)
          = some (normalizeIp ((hget c.heap 0).ip.getD "")) := by
        rw [itemKey, if_pos ht']
      cases hdg : dget c.ip_to_sessions
        (normalizeIp ((hget c.heap 0).ip.getD "")) with
      | none =>
        have hev2 : handleEviction (popRaw c).2 (hget c.heap 0).sid
            (hget c.heap 0).ip = (popRaw c).2 := by
          unfold handleEviction
          rw [if_neg ht]
          dsimp only
          rw [hips, hdg]
        rw [hev2]
        refine ⟨by rw [hips]; exact hnd, ?_⟩
        rw [hips]
        intro p hp
        refine ⟨(hbuck p hp).1, ?_⟩
        intro sid hsid
        refine hshr sid p.1 (hlive_ne p hp ?_ sid hsid)
          ((hbuck p hp).2 sid hsid)
        rw [hkey0]
        intro hsome2
        have he := Option.some.inj hsome2
        have hmem : ((normalizeIp ((hget c.heap 0).ip.getD "")), p.2)
            ∈ c.ip_to_sessions := by
          rw [he]
          exact hp
        exact dget_none_not_mem _ _ hdg p.2 hmem
      | some lst =>
        by_cases hf : lst.filter (fun e => e ≠ (hget c.heap 0).sid) = []
        · have hev2 : handleEviction (popRaw c).2 (hget c.heap 0).sid
              (hget c.heap 0).ip
              = { (popRaw c).2 with ip_to_sessions :=
                  (ddel c.ip_to_sessions
                    (normalizeIp ((hget c.heap 0).ip.getD ""))) } := by
            unfold handleEviction
            rw [if_neg ht]
            dsimp only
            rw [hips, hdg]
            dsimp only
            rw [if_pos hf]
          rw [hev2]
          refine ⟨keysNodup_ddel _ _ hnd, ?_⟩
          intro p hp
          obtain ⟨hpm, hpne⟩ := mem_ddel c.ip_to_sessions _ hnd p hp
          refine ⟨(hbuck p hpm).1, ?_⟩
          intro sid hsid
          refine hshr sid p.1 (hlive_ne p hpm ?_ sid hsid)
            ((hbuck p hpm).2 sid hsid)
          rw [hkey0]
          intro hsome2
          exact hpne (Option.some.inj hsome2).symm
        · have hev2 : handleEviction (popRaw c).2 (hget c.heap 0).sid
              (hget c.heap 0).ip
              = { (popRaw c).2 with ip_to_sessions :=
                  (dset c.ip_to_sessions
                    (normalizeIp ((hget c.heap 0).ip.getD ""))
                    (lst.filter (fun e => e ≠ (hget c.heap 0).sid))) } := by
            unfold handleEviction
            rw [if_neg ht]
            dsimp only
            rw [hips, hdg]
            dsimp only
            rw [if_neg hf]
          rw [hev2]
          refine ⟨keysNodup_dset _ _ _ hnd, ?_⟩
          intro p hp
          rcases mem_dset c.ip_to_sessions _ _ hnd p hp with he | ⟨hpm, hpne⟩
          · subst he
            refine ⟨hf, ?_⟩
            intro sid hsid
            have hsl : sid ∈ lst := List.mem_of_mem_filter hsid
            have hsne : sid ≠ (hget c.heap 0).sid := by
              have hx := List.of_mem_filter hsid
              simpa using hx
            have hmem : ((normalizeIp ((hget c.heap 0).ip.getD "")), lst)
                ∈ c.ip_to_sessions := dget_some_mem _ _ _ hdg
            exact hshr sid _ hsne ((hbuck _ hmem).2 sid hsl)
          · refine ⟨(hbuck p hpm).1, ?_⟩
            intro sid hsid
            refine hshr sid p.1 (hlive_ne p hpm ?_ sid hsid)
              ((hbuck p hpm).2 sid hsid)
            rw [hkey0]
            intro hsome2
            exact hpne (Option.some.inj hsome2).symm
  refine ⟨rfl, ?_, hDrain, ?_, ?_, ?_⟩
  · exact Inv_congr (popRaw c).2 _ hev.1 hev.2.1 hI1
  · show (handleEviction (popRaw c).2 (hget c.heap 0).sid
      (hget c.heap 0).ip).heap.length + 1 = c.heap.length
    rw [hev.1]
    exact hlen
  · show (handleEviction (popRaw c).2 (hget c.heap 0).sid
      (hget c.heap 0).ip).maxSessions = c.maxSessions
    rw [hev.2.2.2.2]
    exact hmaxs
  · show (((handleEviction (popRaw c).2 (hget c.heap 0).sid
        (hget c.heap 0).ip).heap.map proj : List _)
        : Multiset (Nat × String × Storage × Option String))
        + {proj (hget c.heap 0)}
      = ((c.heap.map proj : List _) : Multiset _)
    rw [hev.1]
    exact hmul

theorem heap_sids_nodup (h : List Item) (im : List (String × Nat))
    (him : imOk h im) : (h.map Item.sid).Nodup := by
  rw [show (h.map Item.sid).Nodup
      = (h.map Item.sid).Pairwise (fun a b => a ≠ b) from rfl,
    List.pairwise_iff_getElem]
  intro i j hi hj hij
  rw [List.getElem_map, List.getElem_map]
  intro he
  have hi' : i < h.length := by simpa using hi
  have hj' : j < h.length := by simpa using hj
  have hx := sid_inj h im him i j hi' hj'
    (by rw [hget_lt_eq _ _ hi', hget_lt_eq _ _ hj']; exact he)
  omega

theorem nodup_subset_length {α : Type} [DecidableEq α] {l1 l2 : List α}
    (hn : l1.Nodup) (h : l1 ⊆ l2) : l1.length ≤ l2.length :=
  calc l1.length = l1.toFinset.card := (List.toFinset_card_of_nodup hn).symm
    _ ≤ l2.toFinset.card := Finset.card_le_card (fun x hx => by
        rw [List.mem_toFinset] at hx ⊢
        exact h hx)
    _ ≤ l2.length := l2.toFinset_card_le

theorem im_empty_of_heap_empty (c : Container) (hI : Inv c)
    (hh : c.heap = []) : c.index_map = [] := by
  cases him : c.index_map with
  | nil => rfl
  | cons hd t =>
    exfalso
    obtain ⟨k, v⟩ := hd
    have hdg : dget c.index_map k = some v := by
      rw [him, dget, if_pos rfl]
    obtain ⟨hlt, _⟩ := hI.1.2.1.2 k v hdg
    rw [hh] at hlt
    simp at hlt

theorem ip_empty_of_heap_empty (c : Container) (hD : DrainInv c)
    (hh : c.heap = []) : c.ip_to_sessions = [] := by
  cases hip : c.ip_to_sessions with
  | nil => rfl
  | cons hd t =>
    exfalso
    have hmem : hd ∈ c.ip_to_sessions := by
      rw [hip]
      exact List.mem_cons_self _ _
    obtain ⟨hne, hlive⟩ := hD.2 hd hmem
    cases hl : hd.2 with
    | nil => exact hne hl
    | cons s rest =>
      obtain ⟨i, hi, _, _⟩ := hlive s (by rw [hl]; exact List.mem_cons_self _ _)
      rw [hh] at hi
      simp at hi

theorem drainLoop_spec (fuel : Nat) (c : Container) (acc : List Item)
    (hfuel : c.heap.length ≤ fuel) (hI : Inv c) (hD : DrainInv c) :
    (drainLoop fuel c acc).1.heap = []
    ∧ (drainLoop fuel c acc).1.index_map = []
    ∧ (drainLoop fuel c acc).1.ip_to_sessions = []
    ∧ (drainLoop fuel c acc).1.maxSessions = c.maxSessions
    ∧ (((drainLoop fuel c acc).2.map proj : List _)
        : Multiset (Nat × String × Storage × Option String))
      = ((acc.reverse.map proj : List _) : Multiset _)
        + ((c.heap.map proj : List _) : Multiset _) := by
  induction fuel generalizing c acc with
  | zero =>
    have hh : c.heap = [] := List.length_eq_zero.mp (by omega)
    have hred : drainLoop 0 c acc = (c, acc.reverse) := rfl
    rw [hred]
    refine ⟨hh, im_empty_of_heap_empty c hI hh,
      ip_empty_of_heap_empty c hD hh, rfl, ?_⟩
    rw [hh]
    simp
  | succ fuel ih =>
    by_cases hne : c.heap = []
    · have hred : drainLoop (fuel + 1) c acc = (c, acc.reverse) := by
        unfold drainLoop
        rw [if_pos (by rw [hne]; rfl)]
      rw [hred]
      refine ⟨hne, im_empty_of_heap_empty c hI hne,
        ip_empty_of_heap_empty c hD hne, rfl, ?_⟩
      rw [hne]
      simp
    · obtain ⟨h1, h2, h3, h4, h5, h6⟩ := pop_clean c hI hD hne
      have hpair : Container.pop c
          = (some (hget c.heap 0), (Container.pop c).2) := Prod.ext h1 rfl
      have hred : drainLoop (fuel + 1) c acc
          = drainLoop fuel (Container.pop c).2 (hget c.heap 0 :: acc) := by
        conv_lhs => rw [drainLoop]
        rw [if_neg (by simp [hne]), hpair]
      rw [hred]
      have hfuel2 : (Container.pop c).2.heap.length ≤ fuel := by omega
      obtain ⟨g1, g2, g3, g4, g5⟩ := ih (Container.pop c).2
        (hget c.heap 0 :: acc) hfuel2 h2 h3
      refine ⟨g1, g2, g3, g4.trans h5, ?_⟩
      rw [g5, List.reverse_cons, List.map_append, ← Multiset.coe_add, ← h6]
      have hsing : ((List.map proj [hget c.heap 0] : List _)
          : Multiset (Nat × String × Storage × Option String))
          = {proj (hget c.heap 0)} := rfl
      rw [hsing, add_assoc, add_comm ({proj (hget c.heap 0)} : Multiset _) _]

theorem countKey_cons (x : Item) (l : List Item) (k : String) :
    countKey (x :: l) k
      = (if itemKey x = some k then 1 else 0) + countKey l k := by
  by_cases hx : itemKey x = some k
  · rw [countKey, List.filter_cons_of_pos (by simpa using hx), if_pos hx]
    rw [List.length_cons, countKey]
    omega
  · rw [countKey, List.filter_cons_of_neg (by simpa using hx), if_neg hx]
    rw [countKey]
    omega

theorem countKey_projs (l1 l2 : List Item)
    (hm : ((l1.map proj : List _)
        : Multiset (Nat × String × Storage × Option String))
      = ((l2.map proj : List _) : Multiset _)) (k : String) :
    countKey l1 k = countKey l2 k := by
  have h1 : ∀ l : List Item, countKey l k
      = Multiset.countP (fun x => keyOfProj x = some k)
          ((l.map proj : List _) : Multiset _) := by
    intro l
    show (l.filter (fun x => itemKey x = some k)).length = _
    rw [← List.countP_eq_length_filter, Multiset.coe_countP, List.countP_map]
    rfl
  rw [h1, h1, hm]

theorem sids_of_projs (l1 l2 : List Item) (r : Item)
    (hm : ((l1.map proj : List _)
        : Multiset (Nat × String × Storage × Option String))
      = ((l2.map proj : List _) : Multiset _) + {proj r}) :
    ((l1.map Item.sid : List _) : Multiset String)
      = ((l2.map Item.sid : List _) : Multiset _) + {r.sid} := by
  have h := congrArg
    (Multiset.map (fun x : Nat × String × Storage × Option String => x.2.1)) hm
  rw [Multiset.map_add, Multiset.map_coe, Multiset.map_coe,
    Multiset.map_singleton, List.map_map, List.map_map] at h
  exact h

theorem sids_of_projs_eq (l1 l2 : List Item)
    (hm : ((l1.map proj : List _)
        : Multiset (Nat × String × Storage × Option String))
      = ((l2.map proj : List _) : Multiset _)) :
    ((l1.map Item.sid : List _) : Multiset String)
      = ((l2.map Item.sid : List _) : Multiset _) := by
  have h := congrArg
    (Multiset.map (fun x : Nat × String × Storage × Option String => x.2.1)) hm
  rw [Multiset.map_coe, Multiset.map_coe, List.map_map, List.map_map] at h
  exact h

theorem countKey_le (K : Nat) (c : Container) (hI : Inv c)
    (hC : CleanInv K c) (k : String) : countKey c.heap k ≤ K := by
  obtain ⟨hD, hBuck, hLive⟩ := hC
  have hnodS : ((c.heap.filter (fun x => itemKey x = some k)).map
      Item.sid).Nodup :=
    (heap_sids_nodup c.heap c.index_map hI.1.2.1).sublist
      ((List.filter_sublist _).map Item.sid)
  cases hdg : dget c.ip_to_sessions k with
  | none =>
    have hS : c.heap.filter (fun x => itemKey x = some k) = [] := by
      rw [List.eq_nil_iff_forall_not_mem]
      intro x hx
      obtain ⟨hxm, hxp⟩ := List.mem_filter.mp hx
      obtain ⟨i, hi, hgi⟩ := List.mem_iff_getElem.mp hxm
      have hkey : itemKey (hget c.heap i) = some k := by
        rw [hget_lt_eq _ _ hi, hgi]
        simpa using hxp
      have hx2 := hLive i hi k hkey
      rw [hdg] at hx2
      simp at hx2
    rw [countKey, hS]
    simp
  | some lst =>
    have hsub : ((c.heap.filter (fun x => itemKey x = some k)).map Item.sid)
        ⊆ lst := by
      intro s hs
      obtain ⟨x, hx, rfl⟩ := List.mem_map.mp hs
      obtain ⟨hxm, hxp⟩ := List.mem_filter.mp hx
      obtain ⟨i, hi, hgi⟩ := List.mem_iff_getElem.mp hxm
      have hkey : itemKey (hget c.heap i) = some k := by
        rw [hget_lt_eq _ _ hi, hgi]
        simpa using hxp
      have hmem := hLive i hi k hkey
      rw [hdg] at hmem
      rw [hget_lt_eq _ _ hi, hgi] at hmem
      simpa using hmem
    have hlstK := hBuck _ (dget_some_mem _ _ _ hdg)
    have hlen := nodup_subset_length hnodS hsub
    rw [countKey, ← List.length_map (c.heap.filter
      (fun x => itemKey x = some k)) Item.sid]
    exact le_trans hlen hlstK.2

theorem evictLoop_noop (mp fuel : Nat) (c : Container) (nip : String)
    (h : ¬ mp < ((dget c.ip_to_sessions nip).getD []).length) :
    evictLoop mp (fuel + 1) c nip = (c, Except.ok ()) := by
  unfold evictLoop
  dsimp only
  rw [if_neg h]

theorem refillLoop_spec (K : Nat) (L : List Item) : ∀ (c : Container),
    Inv c →
    ((((c.heap.map Item.sid : List _) : Multiset String)
      + ((L.map Item.sid : List _) : Multiset _)).Nodup) →
    (∀ k, ((dget c.ip_to_sessions k).getD []).length + countKey L k ≤ K) →
    (refillLoop K c L).2 = Except.ok ()
    ∧ (((refillLoop K c L).1.heap.map proj : List _)
        : Multiset (Nat × String × Storage × Option String))
      = ((c.heap.map proj : List _) : Multiset _)
        + ((L.map proj : List _) : Multiset _) := by
  induction L with
  | nil =>
    intro c hI hnd hcnt
    refine ⟨rfl, ?_⟩
    show ((c.heap.map proj : List _)
        : Multiset (Nat × String × Storage × Option String)) = _
    simp
  | cons it rest ih =>
    intro c hI hnd hcnt
    have hfresh : dget c.index_map it.sid = none := by
      cases hdg : dget c.index_map it.sid with
      | none => rfl
      | some j =>
        exfalso
        obtain ⟨hj, hjs⟩ := hI.1.2.1.2 it.sid j hdg
        have hmem1 : it.sid ∈ ((c.heap.map Item.sid : List _)
            : Multiset String) := by
          rw [Multiset.mem_coe, List.mem_map]
          refine ⟨hget c.heap j, ?_, hjs⟩
          rw [hget_lt_eq _ _ hj]
          exact List.getElem_mem hj
        have hmem2 : it.sid ∈ (((it :: rest).map Item.sid : List _)
            : Multiset String) := by simp
        have hcount := Multiset.nodup_iff_count_le_one.mp hnd it.sid
        rw [Multiset.count_add] at hcount
        have hc1 := Multiset.count_pos.mpr hmem1
        have hc2 := Multiset.count_pos.mpr hmem2
        omega
    obtain ⟨hpI, hplen, hpmul⟩ := pushRaw_inv c it.priority it.sid it.data
      it.ip hI hfresh
    have hip1 : (pushRaw c it.priority it.sid it.data it.ip).ip_to_sessions
        = c.ip_to_sessions := rfl
    have hstep : ∃ c2 : Container,
        Container.push K c it.priority it.sid it.data it.ip
          = (c2, Except.ok ())
        ∧ c2.heap = (pushRaw c it.priority it.sid it.data it.ip).heap
        ∧ c2.index_map = (pushRaw c it.priority it.sid it.data it.ip).index_map
        ∧ ∀ k, ((dget c2.ip_to_sessions k).getD []).length
            + countKey rest k ≤ K := by
      by_cases ht : truthy it.ip = false
      · refine ⟨pushRaw c it.priority it.sid it.data it.ip, ?_, rfl, rfl, ?_⟩
        · unfold Container.push handleAddition
          rw [if_pos ht]
        · intro k
          have h1 := hcnt k
          rw [countKey_cons] at h1
          have hkey : itemKey it = none := by
            rw [itemKey, if_neg (by simp [ht])]
          rw [hkey, if_neg (fun hx => Option.noConfusion hx)] at h1
          rw [hip1]
          omega
      · have ht' : truthy it.ip = true := by
          cases hb : truthy it.ip
          · exact absurd hb ht
          · rfl
        have hkey : itemKey it = some (normalizeIp (it.ip.getD "")) := by
          rw [itemKey, if_pos ht']
        cases hdg : dget c.ip_to_sessions (normalizeIp (it.ip.getD "")) with
        | none =>
          refine ⟨{ pushRaw c it.priority it.sid it.data it.ip with
              ip_to_sessions := (dset c.ip_to_sessions
                (normalizeIp (it.ip.getD "")) [it.sid]) }, ?_, rfl, rfl, ?_⟩
          · unfold Container.push handleAddition
            rw [if_neg ht]
            dsimp only
            rw [hip1, hdg]
          · intro k
            dsimp only
            by_cases hk : k = normalizeIp (it.ip.getD "")
            · rw [hk, dget_dset_eq]
              have h1 := hcnt (normalizeIp (it.ip.getD ""))
              rw [countKey_cons, if_pos hkey, hdg] at h1
              simp only [Option.getD_none, List.length_nil] at h1
              simp only [Option.getD_some, List.length_cons, List.length_nil]
              omega
            · rw [dget_dset_ne _ _ _ _ (fun he => hk he.symm)]
              have h1 := hcnt k
              have hne2 : ¬ itemKey it = some k := by
                rw [hkey]
                intro he
                exact hk (Option.some.inj he).symm
              rw [countKey_cons, if_neg hne2] at h1
              omega
        | some lst =>
          refine ⟨{ pushRaw c it.priority it.sid it.data it.ip with
              ip_to_sessions := (dset c.ip_to_sessions
                (normalizeIp (it.ip.getD "")) (lst ++ [it.sid])) },
              ?_, rfl, rfl, ?_⟩
          · unfold Container.push handleAddition
            rw [if_neg ht]
            dsimp only
            rw [hip1, hdg]
            dsimp only
            rw [evictLoop_noop]
            dsimp only
            rw [dget_dset_eq]
            have h1 := hcnt (normalizeIp (it.ip.getD ""))
            rw [countKey_cons, if_pos hkey, hdg] at h1
            simp only [Option.getD_some] at h1
            simp only [Option.getD_some, List.length_append,
              List.length_cons, List.length_nil]
            omega
          · intro k
            dsimp only
            by_cases hk : k = normalizeIp (it.ip.getD "")
            · rw [hk, dget_dset_eq]
              have h1 := hcnt (normalizeIp (it.ip.getD ""))
              rw [countKey_cons, if_pos hkey, hdg] at h1
              simp only [Option.getD_some] at h1
              simp only [Option.getD_some, List.length_append,
                List.length_cons, List.length_nil]
              omega
            · rw [dget_dset_ne _ _ _ _ (fun he => hk he.symm)]
              have h1 := hcnt k
              have hne2 : ¬ itemKey it = some k := by
                rw [hkey]
                intro he
                exact hk (Option.some.inj he).symm
              rw [countKey_cons, if_neg hne2] at h1
              omega
    obtain ⟨c2, hadd, hheap2, him2, hcnt2⟩ := hstep
    have hred : refillLoop K c (it :: rest) = refillLoop K c2 rest := by
      conv_lhs => rw [refillLoop]
      rw [hadd]
    rw [hred]
    have hI2 : Inv c2 := Inv_congr (pushRaw c it.priority it.sid it.data it.ip)
      c2 hheap2 him2 hpI
    have hsid2 : ((c2.heap.map Item.sid : List _) : Multiset String)
        = ((c.heap.map Item.sid : List _) : Multiset _) + {it.sid} := by
      rw [hheap2]
      exact sids_of_projs _ c.heap it hpmul
    have halg : (((c.heap.map Item.sid : List _) : Multiset String) + {it.sid})
        + ((rest.map Item.sid : List _) : Multiset _)
        = ((c.heap.map Item.sid : List _) : Multiset _)
          + (((it :: rest).map Item.sid : List _) : Multiset _) := by
      rw [List.map_cons, ← Multiset.cons_coe, ← Multiset.singleton_add,
        add_assoc]
    have hnd2 : (((c2.heap.map Item.sid : List _) : Multiset String)
        + ((rest.map Item.sid : List _) : Multiset _)).Nodup := by
      rw [hsid2, halg]
      exact hnd
    obtain ⟨g1, g2⟩ := ih c2 hI2 hnd2 hcnt2
    refine ⟨g1, ?_⟩
    rw [g2]
    have hm2 : ((c2.heap.map proj : List _)
        : Multiset (Nat × String × Storage × Option String))
        = ((c.heap.map proj : List _) : Multiset _) + {proj it} := by
      rw [hheap2]
      exact hpmul
    rw [hm2, List.map_cons, ← Multiset.cons_coe, ← Multiset.singleton_add,
      add_assoc]

/-- C8 as literally stated — for *every* container state — fails: on a
container whose address bucket holds more live sessions than the per-address
cap (a state the quota code intends to exclude, but which the normalization
slip recorded for C2 makes reachable), the refill half of the snapshot
re-triggers the per-address eviction and destroys a session while still
reporting success. -/
theorem claim_C8_counterexample :
    c8CexState.heap.length = 2
    ∧ (save_data_mem 1 c8CexState).1.heap.length = 1
    ∧ (save_data_mem 1 c8CexState).2 = Except.ok () :=
  ⟨rfl, by decide, by rfl⟩

/-- C8 (amended): on every container whose heap satisfies the internal heap
invariant and whose address-quota bookkeeping is consistent with the live
heap (`CleanInv`), the in-memory effect of `save_data` — draining the heap
oldest-to-newest by `pop` and re-pushing every saved item by `push` — is
non-destructive: the resulting container holds exactly the same sessions
with the same priorities, payload objects and client addresses (equal
multisets of item contents), and the drain/refill loops report no error.
The subsequent file write touches no container state, so a persistence I/O
failure leaves the in-memory state unaffected, as the claim's second half
states. -/
theorem claim_C8_theorem (K : Nat) (c : Container) (hI : Inv c)
    (hC : CleanInv K c) :
    (((save_data_mem K c).1.heap.map proj : List _)
        : Multiset (Nat × String × Storage × Option String))
      = ((c.heap.map proj : List _) : Multiset _)
    ∧ (save_data_mem K c).2 = Except.ok () := by
  obtain ⟨hD, hB, hL⟩ := hC
  obtain ⟨d1, d2, d3, d4, d5⟩ := drainLoop_spec c.heap.length c []
    (le_refl _) hI hD
  have hsave : save_data_mem K c
      = refillLoop K (drainLoop c.heap.length c []).1
          (drainLoop c.heap.length c []).2 := rfl
  rw [hsave]
  have hIe : Inv (drainLoop c.heap.length c []).1 := by
    refine ⟨⟨?_, ⟨?_, ?_⟩, ?_⟩, ?_⟩
    · intro k hk
      rw [d1] at hk
      simp at hk
    · intro k hk
      rw [d1] at hk
      simp at hk
    · intro s j hj
      rw [d2] at hj
      cases hj
    · rw [d2]
      simp [keysNodup]
    · intro j hj0 hjl
      rw [d1] at hjl
      simp at hjl
  have hdm : (((drainLoop c.heap.length c []).2.map proj : List _)
      : Multiset (Nat × String × Storage × Option String))
      = ((c.heap.map proj : List _) : Multiset _) := by
    rw [d5]
    simp
  have hnd0 : ((((drainLoop c.heap.length c []).1.heap.map Item.sid : List _)
      : Multiset String)
      + (((drainLoop c.heap.length c []).2.map Item.sid : List _)
        : Multiset _)).Nodup := by
    rw [d1]
    simp only [List.map_nil, Multiset.coe_nil, zero_add]
    rw [sids_of_projs_eq _ c.heap hdm, Multiset.coe_nodup]
    exact heap_sids_nodup c.heap c.index_map hI.1.2.1
  have hcnt0 : ∀ k,
      ((dget (drainLoop c.heap.length c []).1.ip_to_sessions k).getD
        []).length + countKey (drainLoop c.heap.length c []).2 k ≤ K := by
    intro k
    rw [d3]
    have hck : countKey (drainLoop c.heap.length c []).2 k
        = countKey c.heap k := countKey_projs _ _ hdm k
    rw [hck]
    simpa [dget] using countKey_le K c hI ⟨hD, hB, hL⟩ k
  obtain ⟨r1, r2⟩ := refillLoop_spec K (drainLoop c.heap.length c []).2
    (drainLoop c.heap.length c []).1 hIe hnd0 hcnt0
  refine ⟨?_, r1⟩
  rw [r2, d1]
  simp only [List.map_nil, Multiset.coe_nil, zero_add]
  exact hdm

/-- Witness for C8: on a container satisfying the invariants (here the
fresh empty container) the snapshot round-trip preserves the heap contents
and reports success. -/
theorem claim_C8_witness :
    (((save_data_mem 1 (Container.init 5)).1.heap.map proj : List _)
        : Multiset (Nat × String × Storage × Option String))
      = (((Container.init 5).heap.map proj : List _) : Multiset _)
    ∧ (save_data_mem 1 (Container.init 5)).2 = Except.ok () :=
  claim_C8_theorem 1 (Container.init 5)
    ⟨⟨fun k hk => absurd hk (by simp [Container.init]),
      ⟨fun k hk => absurd hk (by simp [Container.init]),
       fun s j hj => Option.noConfusion hj⟩,
      by simp [Container.init, keysNodup]⟩,
     fun j hj0 hjl => absurd hjl (by simp [Container.init])⟩
    ⟨⟨by simp [Container.init, keysNodup],
      fun p hp => absurd hp (by simp [Container.init])⟩,
     fun p hp => absurd hp (by simp [Container.init]),
     fun i hi => absurd hi (by simp [Container.init])⟩

end RWServer
